import Mathlib

/-!
Verification of the crossword CSP solver in src/crossword/generate.py
(class CrosswordCreator).

The solver's state is a domain store mapping each variable (word slot) to its
list of still-possible candidate words.  Python stores domains as
dict[Variable, set[str]]; we model the dict as an association list whose order
is the dict's insertion order, and each set[str] as a list of words whose
order is the set's (hash-dependent, per-run) enumeration order.  All Python
set/dict enumeration orders are thereby explicit parameters of the model.

The Crossword class itself (crossword.py) is not part of the sources; its
variables/overlaps/neighbors interface is modelled from the spec (section 3).
-/

namespace CrosswordGen

/-- Modelled from the spec: a word is a string, viewed as its letter sequence. -/
abbrev Word := List Char

/-- Modelled from the spec: a Variable is one word slot, identified by start
row, start column, direction (ACROSS or DOWN) and length; equality is
field-wise. -/
structure Var where
  i : Nat
  j : Nat
  down : Bool
  len : Nat
deriving DecidableEq

/-- Modelled from the spec: the Puzzle Model.  variables is the set of slots
in its (per-run) enumeration order; overlaps maps an ordered pair of
variables to the pair of offsets of their shared cell, or none. -/
structure Puzzle where
  vars : List Var
  overlaps : Var → Var → Option (Nat × Nat)

/-- Modelled from the spec: the neighbors of a variable are all other
variables with a defined overlap to it, in enumeration order. -/
def neighbors (p : Puzzle) (v : Var) : List Var :=
  p.vars.filter (fun u => decide (u ≠ v) && (p.overlaps v u).isSome)

/-- The Domain Store: dict[Variable, set[str]] as an association list in
insertion order; each value is the candidate set in enumeration order. -/
abbrev Domains := List (Var × List Word)

/-- An assignment: dict[Variable, str] as an association list in insertion
order. -/
abbrev Assignment := List (Var × Word)

/-- Reading self.domains[v]: the candidate list of v (empty if v is absent,
which never happens in the solver since the dict's keys are fixed at
construction). -/
def domOf : Domains → Var → List Word
  | [], _ => []
  | e :: rest, v => if e.1 = v then e.2 else domOf rest v

/-- Writing self.domains[v] in place: replace the first entry for v (dicts
have unique keys); other entries and the key order are untouched. -/
def setDom : Domains → Var → List Word → Domains
  | [], _, _ => []
  | e :: rest, v, ws => if e.1 = v then (v, ws) :: rest else e :: setDom rest v ws

/-- The key list of the store, in dict order. -/
def keysOf (d : Domains) : List Var := d.map (·.1)

/-- Reading assignment[v] (none when v is unassigned). -/
def lookupA : Assignment → Var → Option Word
  | [], _ => none
  | e :: rest, v => if e.1 = v then some e.2 else lookupA rest v

/-- CrosswordCreator.__init__: every variable starts with a copy of the full
word list. -/
def initDomains (p : Puzzle) (words : List Word) : Domains :=
  p.vars.map (fun v => (v, words))

/-- CrosswordCreator.enforce_node_consistency: remove from every domain each
word whose length differs from the variable's length. -/
def enforce_node_consistency (d : Domains) : Domains :=
  d.map (fun e => (e.1, e.2.filter (fun w => decide (w.length = e.1.len))))

/-- CrosswordCreator.revise(x, y): drop from domain(x) every word whose
letter at the overlap offset has no matching letter among domain(y)'s words;
returns the new store and whether anything was removed.  (The source indexes
item_y[y_idx] and item_x[x_idx] directly; it is only called on neighbor arcs,
where the overlap is defined and, after node consistency, the offsets are in
range.  Out-of-range letters are modelled as removal, and a missing overlap
as no revision.) -/
def revise (p : Puzzle) (d : Domains) (x y : Var) : Domains × Bool :=
  match p.overlaps x y with
  | none => (d, false)
  | some (xi, yi) =>
    let possible : List Char := (domOf d y).filterMap (fun w => w.get? yi)
    let old := domOf d x
    let newX := old.filter (fun w =>
      match w.get? xi with
      | some c => possible.contains c
      | none => false)
    (setDom d x newX, decide (newX.length ≠ old.length))

/-- The initial worklist of ac3 when called with arcs=None: every ordered
pair (v, n) with n a neighbor of v, built by the source's nested loop over
the domains dict and each neighbor set. -/
def initialArcs (p : Puzzle) : List (Var × Var) :=
  (p.vars.map (fun v => (neighbors p v).map (fun n => (v, n)))).flatten

/-- The source's re-enqueue step after revise(x, y) reported a change:
for k in self.crossword.neighbors(x): arcs.add((x, k)).  The worklist is a
Python set, so adding a present arc is a no-op; a new arc is appended. -/
def enqueueArcs (p : Puzzle) (x : Var) (rest : List (Var × Var)) : List (Var × Var) :=
  (neighbors p x).foldl (fun acc k => if (x, k) ∈ acc then acc else acc ++ [(x, k)]) rest

/-- Total size of a store, the measure that bounds the ac3 worklist loop
(the Python loop always terminates; the fuel computed from this measure is
proved sufficient in ac3Loop_AInv and ac3Loop_of_consistent below). -/
def sigma (d : Domains) : Nat := (d.map (fun e => e.2.length)).sum

/-- CrosswordCreator.ac3's worklist loop.  The Python worklist is a set whose
pop() order is unspecified; the model fixes one admissible linearization
(pop the head, append new arcs).  Each iteration pops an arc (x, y), runs
revise, fails if domain(x) emptied, and re-enqueues (x, k) for the neighbors
k of x if a revision was made.  Returns none only on fuel exhaustion. -/
def ac3Loop (p : Puzzle) : Nat → Domains → List (Var × Var) → Option (Domains × Bool)
  | 0, _, _ => none
  | _ + 1, d, [] => some (d, true)
  | fuel + 1, d, (x, y) :: rest =>
    let r := revise p d x y
    if (domOf r.1 x).length = 0 then some (r.1, false)
    else if r.2 then ac3Loop p fuel r.1 (enqueueArcs p x rest)
    else ac3Loop p fuel r.1 rest

/-- CrosswordCreator.ac3: run the worklist loop starting from the given arcs
(or from all ordered neighbor pairs when none are given).  The fuel supplied
is sufficient (see ac3_AInv and ac3Loop_of_consistent below), so the
fuel-exhaustion fallback (which returns the store unchanged with failure) is
never taken on the runs the proofs below reason about. -/
def ac3 (p : Puzzle) (d : Domains) (arcsOpt : Option (List (Var × Var))) : Domains × Bool :=
  let arcs0 := arcsOpt.getD (initialArcs p)
  match ac3Loop p (sigma d * ((initialArcs p).length + 1) + arcs0.length + 1) d arcs0 with
  | some r => r
  | none => (d, false)

/-- CrosswordCreator.assignment_complete: the assignment covers as many
variables as the domains dict has keys. -/
def assignment_complete (d : Domains) (a : Assignment) : Bool :=
  decide (a.length = d.length)

/-- CrosswordCreator.pair_consistent: the letters of the two words at the
overlap offsets of the two variables agree.  (The source indexes the strings
directly and is only called on neighbor pairs of node-consistent words; the
Option-valued letters agree exactly when Python's letters do.) -/
def pair_consistent (p : Puzzle) (x y : Var × Word) : Bool :=
  match p.overlaps x.1 y.1 with
  | some (xi, yi) => x.2.get? xi == y.2.get? yi
  | none => true

/-- The loop of CrosswordCreator.consistent: walk the assignment's entries,
rejecting a repeated word, a length mismatch, or an overlap conflict with any
assigned neighbor; used accumulates the words already seen. -/
def consistentLoop (p : Puzzle) (full : Assignment) : Assignment → List Word → Bool
  | [], _ => true
  | (v, w) :: rest, used =>
    if used.contains w then false
    else if decide (w.length ≠ v.len) then false
    else if (neighbors p v).all (fun v2 =>
        match lookupA full v2 with
        | some w2 => pair_consistent p (v, w) (v2, w2)
        | none => true) then
      consistentLoop p full rest (w :: used)
    else false

/-- CrosswordCreator.consistent: no duplicate words, correct lengths, and
matching letters at the overlap offsets of every assigned neighbor pair. -/
def consistent (p : Puzzle) (a : Assignment) : Bool :=
  consistentLoop p a a []

/-- The count computed by CrosswordCreator.order_domain_values for one
candidate word: how many neighbors of var still have that exact word in
their own domain. -/
def ruleOutCount (p : Puzzle) (d : Domains) (var : Var) (w : Word) : Nat :=
  (neighbors p var).countP (fun nb => (domOf d nb).contains w)

/-- The comparison used to sort candidate (count, word) pairs ascending by
count. -/
def countLE (u v : Nat × Word) : Prop := u.1 ≤ v.1

instance : DecidableRel countLE := fun u v => inferInstanceAs (Decidable (u.1 ≤ v.1))

/-- CrosswordCreator.order_domain_values: pair every candidate of
domain(var) with its rule-out count, sort ascending by count with Python's
stable list.sort (modelled by the stable insertion sort), and return the
words.  The assignment argument is accepted and ignored, as in the source. -/
def order_domain_values (p : Puzzle) (d : Domains) (var : Var) (_a : Assignment) : List Word :=
  let ordered_val := (domOf d var).map (fun w => (ruleOutCount p d var w, w))
  (List.insertionSort countLE ordered_val).map (·.2)

/-- The first loop of CrosswordCreator.select_unassigned_variable: walk the
domains dict in order, keeping the running minimum domain size (none encodes
float inf) and the list of unassigned variables attaining it. -/
def svLoop (a : Assignment) : List (Var × List Word) → Option Nat → List Var → List Var
  | [], _, cands => cands
  | (v, ws) :: rest, none, cands =>
    if (lookupA a v).isSome then svLoop a rest none cands
    else svLoop a rest (some ws.length) [v]
  | (v, ws) :: rest, some n, cands =>
    if (lookupA a v).isSome then svLoop a rest (some n) cands
    else
      if ws.length < n then svLoop a rest (some ws.length) [v]
      else if ws.length = n then svLoop a rest (some n) (cands ++ [v])
      else svLoop a rest (some n) cands

/-- The second loop of CrosswordCreator.select_unassigned_variable: the first
candidate of strictly maximal degree wins (max_degree starts at -inf, so the
first candidate always replaces the initial none). -/
def maxDegLoop (p : Puzzle) : List Var → Option (Nat × Var) → Option Var
  | [], none => none
  | [], some q => some q.2
  | v :: rest, none => maxDegLoop p rest (some ((neighbors p v).length, v))
  | v :: rest, some (m, r) =>
    if (neighbors p v).length > m then maxDegLoop p rest (some ((neighbors p v).length, v))
    else maxDegLoop p rest (some (m, r))

/-- CrosswordCreator.select_unassigned_variable: minimum-remaining-values
with highest-degree tie-break; returns none exactly when every variable is
assigned (in Python that None would crash order_domain_values, but the
solver never reaches this case). -/
def select_unassigned_variable (p : Puzzle) (d : Domains) (a : Assignment) : Option Var :=
  let cands := svLoop a d none []
  if cands.length = 1 then cands.head?
  else maxDegLoop p cands none

/-- The candidate loop of CrosswordCreator.backtrack, threading the live
domain store.  The source snapshots the store with dict.copy() and "restores"
it with another dict.copy() when a trial fails; both are shallow copies whose
inner sets alias the live store, and revise only ever mutates those shared
inner sets in place, so the restore never changes the observable store (this
aliasing is proved in the PyStore section below).  The value-level loop
therefore keeps the store exactly as the failed trial left it.  recur is the
recursive backtrack call at the next depth. -/
def btLoop (p : Puzzle) (recur : Domains → Assignment → Option Assignment × Domains)
    (a : Assignment) (var : Var) : List Word → Domains → Option Assignment × Domains
  | [], d => (none, d)
  | trial :: rest, d =>
    let a' := a ++ [(var, trial)]
    if consistent p a' then
      let r := ac3 p d none
      if r.2 then
        match recur r.1 a' with
        | (some res, d2) => (some res, d2)
        | (none, d2) => btLoop p recur a var rest d2
      else btLoop p recur a var rest r.1
    else btLoop p recur a var rest d

/-- CrosswordCreator.backtrack: if the assignment is complete return it;
otherwise select a variable, order its candidates, and try them in order,
recursing on each consistent trial that survives ac3.  fuel bounds the
recursion depth (each recursive call assigns one more variable, so any fuel
exceeding the number of unassigned variables is sufficient; the solver
supplies such fuel). -/
def backtrack (p : Puzzle) : Nat → Domains → Assignment → Option Assignment × Domains
  | 0, d, _ => (none, d)
  | fuel + 1, d, a =>
    if assignment_complete d a then (some a, d)
    else
      match select_unassigned_variable p d a with
      | none => (none, d)
      | some var => btLoop p (backtrack p fuel) a var (order_domain_values p d var a) d

/-- CrosswordCreator.solve: enforce node consistency, run ac3 discarding its
boolean result, and backtrack from the empty assignment. -/
def solve (p : Puzzle) (words : List Word) : Option Assignment :=
  let d1 := enforce_node_consistency (initDomains p words)
  let d2 := (ac3 p d1 none).1
  (backtrack p (d2.length + 1) d2 []).1

/-! ### Spec-side predicates

These state, in the spec's words, the properties the claims assert about the
store; they are compared with what the translated code actually does. -/

/-- Stated from the spec: the store is arc consistent when, for every ordered
pair of neighbor variables (x, y) and every word w in domain(x), some word in
domain(y) has an equal letter at the overlap offsets of (x, y). -/
def arcConsistentB (p : Puzzle) (d : Domains) : Bool :=
  p.vars.all (fun x => (neighbors p x).all (fun y =>
    match p.overlaps x y with
    | some (xi, yi) => (domOf d x).all (fun w =>
        (domOf d y).any (fun w2 =>
          match w.get? xi, w2.get? yi with
          | some c1, some c2 => c1 == c2
          | _, _ => false))
    | none => true))

/-! ### The Python object model of the snapshot

The source snapshots the store with domains_copy = self.domains.copy() and
restores it with self.domains = domains_copy.copy(); dict.copy() duplicates
the outer mapping only, so both dicts point at the same inner set objects,
and revise mutates those sets in place.  To reason about this aliasing we
model the dict as a mapping from variables to references and the inner sets
as a heap from references to word lists. -/

/-- The dict object of self.domains: variable to reference of its set. -/
abbrev PyEnv := List (Var × Nat)

/-- A Python store: the domains dict together with the heap of set objects. -/
structure PyStore where
  env : PyEnv
  heap : List (Nat × List Word)

/-- Dereference a set object. -/
def heapGet : List (Nat × List Word) → Nat → List Word
  | [], _ => []
  | e :: rest, r => if e.1 = r then e.2 else heapGet rest r

/-- Overwrite a set object in place (first entry with that reference). -/
def heapSet : List (Nat × List Word) → Nat → List Word → List (Nat × List Word)
  | [], _, _ => []
  | e :: rest, r, ws => if e.1 = r then (r, ws) :: rest else e :: heapSet rest r ws

/-- The reference the dict holds for a variable. -/
def envRef : PyEnv → Var → Option Nat
  | [], _ => none
  | e :: rest, v => if e.1 = v then some e.2 else envRef rest v

/-- The observable value of self.domains[v]: follow the reference into the
heap. -/
def valueOf (s : PyStore) (v : Var) : List Word :=
  match envRef s.env v with
  | some r => heapGet s.heap r
  | none => []

/-- domains_copy = self.domains.copy(): a new dict holding the same
references; the inner set objects are not cloned. -/
def dictShallowCopy (s : PyStore) : PyEnv := s.env

/-- self.domains = domains_copy.copy(): the live dict becomes a fresh copy of
the saved one, over the shared process heap. -/
def restoreFrom (saved : PyEnv) (s : PyStore) : PyStore :=
  { env := saved, heap := s.heap }

/-- revise at the object level: self.domains[x].remove(...) mutates x's set
object in the heap through the reference, exactly as the value-level revise
filters domain(x). -/
def reviseInPlace (p : Puzzle) (s : PyStore) (x y : Var) : PyStore :=
  match p.overlaps x y with
  | none => s
  | some (xi, yi) =>
    let possible : List Char := (valueOf s y).filterMap (fun w => w.get? yi)
    match envRef s.env x with
    | none => s
    | some r =>
      { env := s.env,
        heap := heapSet s.heap r ((heapGet s.heap r).filter (fun w =>
          match w.get? xi with
          | some c => possible.contains c
          | none => false)) }

/-! ### Concrete instances used by witnesses and counterexamples -/

/-- A single isolated slot of length 1. -/
def vA : Var := ⟨0, 0, false, 1⟩

/-- The puzzle with the single isolated slot vA. -/
def pA : Puzzle := ⟨[vA], fun _ _ => none⟩

/-- Slot variables of the chain puzzle p3: vK and vX overlap, vX and vY
overlap, vK and vY do not. -/
def vK : Var := ⟨0, 0, false, 1⟩

/-- Middle slot of the chain puzzle p3. -/
def vX : Var := ⟨2, 0, false, 1⟩

/-- Third slot of the chain puzzle p3. -/
def vY : Var := ⟨4, 0, false, 1⟩

/-- A three-slot chain puzzle: vK - vX - vY, each overlap at offsets
(0, 0). -/
def p3 : Puzzle :=
  ⟨[vK, vY, vX], fun u v =>
    if (u = vK ∧ v = vX) ∨ (u = vX ∧ v = vK) ∨ (u = vX ∧ v = vY) ∨ (u = vY ∧ v = vX) then
      some (0, 0)
    else none⟩

/-- A store for p3: domain(vK) = a, b; domain(vY) = b; domain(vX) = a, b. -/
def d3 : Domains := [(vK, [['a'], ['b']]), (vY, [['b']]), (vX, [['a'], ['b']])]

/-- An across slot of length 2 starting at the origin. -/
def vAc : Var := ⟨0, 0, false, 2⟩

/-- A down slot of length 2 crossing vAc. -/
def vDn : Var := ⟨0, 1, true, 2⟩

/-- A two-slot crossing puzzle: letter 0 of vAc equals letter 1 of vDn. -/
def pB : Puzzle :=
  ⟨[vAc, vDn], fun u v =>
    if u = vAc ∧ v = vDn then some (0, 1)
    else if u = vDn ∧ v = vAc then some (1, 0)
    else none⟩

/-- The word list ab, cd for pB: no word's letter 0 matches another word's
letter 1, so arc consistency empties domain(vAc). -/
def wordsB : List Word := [['a', 'b'], ['c', 'd']]

/-- A two-slot crossing puzzle whose slots agree at their first letters. -/
def pC : Puzzle :=
  ⟨[vAc, vDn], fun u v =>
    if (u = vAc ∧ v = vDn) ∨ (u = vDn ∧ v = vAc) then some (0, 0) else none⟩

/-- A Python store for pB: the domains dict maps vAc and vDn to the set
objects 0 and 1, each holding the full word list. -/
def sB : PyStore := ⟨[(vAc, 0), (vDn, 1)], [(0, wordsB), (1, wordsB)]⟩

/-! ### Object-level facts about the snapshot discipline -/

/-- reviseInPlace only mutates the heap: the dict itself is untouched. -/
theorem reviseInPlace_env (p : Puzzle) (s : PyStore) (x y : Var) :
    (reviseInPlace p s x y).env = s.env := by
  unfold reviseInPlace
  cases p.overlaps x y with
  | none => rfl
  | some o =>
    cases o with
    | mk xi yi =>
      simp only
      cases envRef s.env x <;> rfl

/-- Helper: a whole sequence of in-place revisions leaves the dict
untouched. -/
theorem foldRevise_env (p : Puzzle) (ops : List (Var × Var)) (s : PyStore) :
    (ops.foldl (fun t xy => reviseInPlace p t xy.1 xy.2) s).env = s.env := by
  induction ops generalizing s with
  | nil => rfl
  | cons op rest ih => simpa [reviseInPlace_env] using ih (reviseInPlace p s op.1 op.2)

/-- Restoring from the shallow snapshot after any sequence of in-place
revisions is a no-op: the snapshot holds the same references as the live
dict, whose bindings never change, so the restore reinstates exactly the
mutated store.  This justifies the value-level backtrack loop keeping the
store as a failed trial left it. -/
theorem restore_after_shallow_snapshot (p : Puzzle) (ops : List (Var × Var)) (s : PyStore) :
    restoreFrom (dictShallowCopy s) (ops.foldl (fun t xy => reviseInPlace p t xy.1 xy.2) s) =
      ops.foldl (fun t xy => reviseInPlace p t xy.1 xy.2) s := by
  have h := foldRevise_env p ops s
  unfold restoreFrom dictShallowCopy
  cases hf : ops.foldl (fun t xy => reviseInPlace p t xy.1 xy.2) s with
  | mk env heap => simp only [hf] at h; simpa using h.symm

/-- C2: the snapshot taken in backtrack is a dict shallow copy, not a deep
duplicate: after one revise mutation of the live store, the snapshot
observes the mutated domain (it aliases the live inner sets), and restoring
from the snapshot yields the mutated store, not the store as it was before
the trial.  Concretely, on puzzle pB with both domains ab, cd, revise
empties domain(vAc); the claimed deep-copy/exact-restore behavior fails. -/
theorem snapshot_restore_shallow_bug :
    valueOf (restoreFrom (dictShallowCopy sB) (reviseInPlace pB sB vAc vDn)) vAc ≠
        valueOf sB vAc ∧
      valueOf ⟨dictShallowCopy sB, (reviseInPlace pB sB vAc vDn).heap⟩ vAc ≠
        valueOf sB vAc := by
  decide

/-- C3: the arc-consistency postcondition fails on the code.  On the chain
puzzle p3 with store d3, ac3 (default worklist) returns True, yet the word a
remains in domain(vK) with no supporting word left in domain(vX): the
re-enqueue step adds arcs (x, k) instead of (k, x), so the arc (vK, vX) is
never revisited after domain(vX) shrinks. -/
theorem ac3_postcondition_bug :
    (ac3 p3 d3 none).2 = true ∧ arcConsistentB p3 (ac3 p3 d3 none).1 = false := by
  decide

/-- C4: the re-enqueue step adds the wrong arcs.  In the p3/d3 run the loop
reaches the store dAfter with worklist (vX, vY); revise(vX, vY) reports a
change and domain(vX) stays non-empty, and the code then enqueues exactly
(vX, vK) and (vX, vY) - the arcs (x, k) for every neighbor k of x, including
y - whereas the claim requires exactly (vK, vX), the arcs (k, x) for k other
than y. -/
theorem ac3_enqueue_bug :
    (revise p3 [(vK, [['a'], ['b']]), (vY, [['b']]), (vX, [['a'], ['b']])] vX vY).2 = true ∧
      (domOf (revise p3 [(vK, [['a'], ['b']]), (vY, [['b']]), (vX, [['a'], ['b']])] vX vY).1
          vX).length ≠ 0 ∧
      enqueueArcs p3 vX [] = [(vX, vK), (vX, vY)] ∧
      enqueueArcs p3 vX [] ≠ [(vK, vX)] := by
  decide

/-- C6 counterexample: two runs of solve on the same puzzle and the same word
set, differing only in the enumeration order of the word set (as happens
across Python runs through hash randomization), return different
assignments: on the isolated slot vA, solve assigns whichever fitting word
the domain set enumerates first. -/
theorem solve_enum_order_dependent :
    solve pA [['a'], ['b']] ≠ solve pA [['b'], ['a']] := by
  decide

/-- C6 amended: within the model every source of run-to-run variation (the
enumeration order of the variable set, of each domain set, and of the ac3
worklist linearization) is part of the input, and solve is a function of
that input: two runs with identical puzzle enumeration and identical
word-list enumeration return identical results.  (Across real runs those
orders vary, and the counterexample shows the result then varies too.) -/
theorem solve_deterministic_given_orders (p1 p2 : Puzzle) (w1 w2 : List Word)
    (hp : p1 = p2) (hw : w1 = w2) : solve p1 w1 = solve p2 w2 := by
  rw [hp, hw]

/-- Witness for solve_deterministic_given_orders at a concrete input. -/
theorem solve_deterministic_given_orders_witness :
    solve pA [['a'], ['b']] = solve pA [['a'], ['b']] :=
  solve_deterministic_given_orders pA pA [['a'], ['b']] [['a'], ['b']] rfl rfl

/-! ### Store update lemmas -/

/-- Writing one key leaves every other key's domain unchanged. -/
theorem domOf_setDom_ne (d : Domains) (x v : Var) (ws : List Word) (h : v ≠ x) :
    domOf (setDom d x ws) v = domOf d v := by
  induction d with
  | nil => rfl
  | cons e rest ih =>
    by_cases he : e.1 = x
    · simp only [setDom, if_pos he, domOf]
      have hxv : ¬ x = v := fun hh => h hh.symm
      have hev : ¬ e.1 = v := by rw [he]; exact hxv
      rw [if_neg hxv, if_neg hev]
    · simp only [setDom, if_neg he, domOf]
      by_cases hv : e.1 = v
      · rw [if_pos hv, if_pos hv]
      · rw [if_neg hv, if_neg hv, ih]

/-- Writing an absent key is a no-op. -/
theorem setDom_of_not_mem (d : Domains) (x : Var) (ws : List Word) (h : ¬ x ∈ keysOf d) :
    setDom d x ws = d := by
  induction d with
  | nil => rfl
  | cons e rest ih =>
    simp only [keysOf, List.map_cons, List.mem_cons, not_or] at h
    have he : ¬ e.1 = x := fun he => h.1 he.symm
    simp only [setDom, if_neg he]
    rw [ih (by simpa [keysOf] using h.2)]

/-- Reading back a written key returns the written value (when the key is
present). -/
theorem domOf_setDom_self_of_mem (d : Domains) (x : Var) (ws : List Word)
    (h : x ∈ keysOf d) : domOf (setDom d x ws) x = ws := by
  induction d with
  | nil => simp [keysOf] at h
  | cons e rest ih =>
    by_cases he : e.1 = x
    · simp [setDom, if_pos he, domOf]
    · have hx : x ∈ keysOf rest := by
        simp only [keysOf, List.map_cons, List.mem_cons] at h
        rcases h with h | h
        · exact absurd h.symm he
        · simpa [keysOf] using h
      simp only [setDom, if_neg he, domOf]
      exact ih hx

/-- Writing a key changes no key of the store. -/
theorem keysOf_setDom (d : Domains) (x : Var) (ws : List Word) :
    keysOf (setDom d x ws) = keysOf d := by
  induction d with
  | nil => rfl
  | cons e rest ih =>
    by_cases he : e.1 = x
    · simp [setDom, he, keysOf]
    · simp only [setDom, he, if_false, keysOf, List.map_cons]
      simpa [keysOf] using ih

/-- Writing a key preserves the number of entries. -/
theorem length_setDom (d : Domains) (x : Var) (ws : List Word) :
    (setDom d x ws).length = d.length := by
  have h := keysOf_setDom d x ws
  have h1 : (keysOf (setDom d x ws)).length = (keysOf d).length := by rw [h]
  simpa [keysOf] using h1

/-- revise never touches the key structure of the store. -/
theorem keysOf_revise (p : Puzzle) (d : Domains) (x y : Var) :
    keysOf (revise p d x y).1 = keysOf d := by
  unfold revise
  cases p.overlaps x y with
  | none => rfl
  | some o => cases o with
    | mk xi yi => simpa using keysOf_setDom d x _

/-- C9: the frame property of revise: domain(x) only loses words (the result
is a sublist of the old domain, so nothing is added and order is kept), and
the domain of every variable other than x is exactly unchanged. -/
theorem revise_frame (p : Puzzle) (d : Domains) (x y : Var) :
    ((domOf (revise p d x y).1 x).Sublist (domOf d x)) ∧
      ∀ v, v ≠ x → domOf (revise p d x y).1 v = domOf d v := by
  unfold revise
  cases p.overlaps x y with
  | none => exact ⟨List.Sublist.refl _, fun v _ => rfl⟩
  | some o =>
    cases o with
    | mk xi yi =>
      simp only
      constructor
      · by_cases hx : x ∈ keysOf d
        · rw [domOf_setDom_self_of_mem _ _ _ hx]
          exact List.filter_sublist _
        · rw [setDom_of_not_mem _ _ _ hx]
      · intro v hv
        exact domOf_setDom_ne _ _ _ _ hv

/-- Witness for revise_frame: on puzzle pB revising vAc against vDn empties
domain(vAc) (a sublist of the old domain) and leaves domain(vDn)
unchanged. -/
theorem revise_frame_witness :
    ((domOf (revise pB [(vAc, wordsB), (vDn, wordsB)] vAc vDn).1 vAc).Sublist
        (domOf [(vAc, wordsB), (vDn, wordsB)] vAc)) ∧
      domOf (revise pB [(vAc, wordsB), (vDn, wordsB)] vAc vDn).1 vDn =
        domOf [(vAc, wordsB), (vDn, wordsB)] vDn := by
  have h := revise_frame pB [(vAc, wordsB), (vDn, wordsB)] vAc vDn
  exact ⟨h.1, h.2 vDn (by decide)⟩

/-! ### The least-constraining-value ordering -/

instance : IsTotal (Nat × Word) countLE := ⟨fun a b => Nat.le_total a.1 b.1⟩

instance : IsTrans (Nat × Word) countLE := ⟨fun _ _ _ => Nat.le_trans⟩

/-- Key stability of the stable insert: filtering one count class out of an
insertion either prepends the inserted pair (when it is in the class) or
leaves the class untouched, because the insert only walks past pairs of
strictly smaller count. -/
theorem orderedInsert_filter_key (c : Nat) (x : Nat × Word) (s : List (Nat × Word)) :
    (List.orderedInsert countLE x s).filter (fun e => decide (e.1 = c)) =
      if x.1 = c then x :: s.filter (fun e => decide (e.1 = c))
      else s.filter (fun e => decide (e.1 = c)) := by
  induction s with
  | nil =>
    by_cases hx : x.1 = c <;> simp [List.orderedInsert, List.filter, hx]
  | cons y ys ih =>
    by_cases hxy : countLE x y
    · simp only [List.orderedInsert, if_pos hxy]
      by_cases hx : x.1 = c <;> simp [List.filter, hx]
    · have hlt : y.1 < x.1 := by
        simpa [countLE, Nat.lt_iff_add_one_le, Nat.not_le] using hxy
      simp only [List.orderedInsert, if_neg hxy]
      by_cases hx : x.1 = c
      · have hy : ¬ y.1 = c := by omega
        simp [List.filter, hy, ih, hx]
      · by_cases hy : y.1 = c <;> simp [List.filter, hy, ih, hx]

/-- The stable insertion sort preserves each count class as a subsequence in
its original order. -/
theorem insertionSort_filter_key (c : Nat) (l : List (Nat × Word)) :
    (List.insertionSort countLE l).filter (fun e => decide (e.1 = c)) =
      l.filter (fun e => decide (e.1 = c)) := by
  induction l with
  | nil => rfl
  | cons x xs ih =>
    simp only [List.insertionSort, orderedInsert_filter_key]
    by_cases hx : x.1 = c <;> simp [List.filter, hx, ih]

/-- Filtering a count class commutes with projecting pairs to words,
whenever every pair carries the count of its word. -/
theorem filter_key_map_snd (f : Word → Nat) (c : Nat) (l : List (Nat × Word))
    (hinv : ∀ e ∈ l, e.1 = f e.2) :
    (l.map (·.2)).filter (fun w => decide (f w = c)) =
      (l.filter (fun e => decide (e.1 = c))).map (·.2) := by
  induction l with
  | nil => rfl
  | cons e rest ih =>
    have he : e.1 = f e.2 := hinv e (by simp)
    have ih2 := ih (fun e he' => hinv e (by simp [he']))
    by_cases hc : f e.2 = c
    · have he' : e.1 = c := he.trans hc
      simp [List.filter_cons, hc, he', ih2]
    · have he' : ¬ e.1 = c := fun h => hc (he.symm.trans h)
      simp [List.filter_cons, hc, he', ih2]

/-- C8 (least-constraining-value ordering): order_domain_values returns a
permutation of domain(var), in ascending order of the count of neighbors
whose domain contains the word, and within each count class the words keep
exactly their original relative enumeration order. -/
theorem order_domain_values_lcv (p : Puzzle) (d : Domains) (var : Var) (a : Assignment) :
    (order_domain_values p d var a).Perm (domOf d var) ∧
      (order_domain_values p d var a).Pairwise
        (fun u v => ruleOutCount p d var u ≤ ruleOutCount p d var v) ∧
      ∀ c, (order_domain_values p d var a).filter
          (fun w => decide (ruleOutCount p d var w = c)) =
        (domOf d var).filter (fun w => decide (ruleOutCount p d var w = c)) := by
  have hmem0 : ∀ e ∈ (domOf d var).map (fun w => (ruleOutCount p d var w, w)),
      e.1 = ruleOutCount p d var e.2 := by
    intro e he
    rcases List.mem_map.1 he with ⟨w, _, rfl⟩
    rfl
  have hmem : ∀ e ∈ List.insertionSort countLE
      ((domOf d var).map (fun w => (ruleOutCount p d var w, w))),
      e.1 = ruleOutCount p d var e.2 := by
    intro e he
    exact hmem0 e ((List.mem_insertionSort _).1 he)
  have hsnd : ((domOf d var).map (fun w => (ruleOutCount p d var w, w))).map (·.2) =
      domOf d var := by
    rw [List.map_map]
    have hcomp : ((fun (x : Nat × Word) => x.2) ∘ fun w => (ruleOutCount p d var w, w)) =
        fun w : Word => w := rfl
    rw [hcomp, List.map_id']
  refine ⟨?_, ?_, ?_⟩
  · show ((List.insertionSort countLE
        ((domOf d var).map (fun w => (ruleOutCount p d var w, w)))).map (·.2)).Perm
        (domOf d var)
    have h1 := (List.perm_insertionSort countLE
      ((domOf d var).map (fun w => (ruleOutCount p d var w, w)))).map (·.2)
    rw [hsnd] at h1
    exact h1
  · show (((List.insertionSort countLE
        ((domOf d var).map (fun w => (ruleOutCount p d var w, w)))).map (·.2))).Pairwise
        (fun u v => ruleOutCount p d var u ≤ ruleOutCount p d var v)
    have hs : (List.insertionSort countLE
        ((domOf d var).map (fun w => (ruleOutCount p d var w, w)))).Pairwise countLE :=
      List.sorted_insertionSort countLE _
    have hs2 : (List.insertionSort countLE
        ((domOf d var).map (fun w => (ruleOutCount p d var w, w)))).Pairwise
        (fun u v => ruleOutCount p d var u.2 ≤ ruleOutCount p d var v.2) := by
      refine List.Pairwise.imp_of_mem ?_ hs
      intro u v hu hv huv
      rw [← hmem u hu, ← hmem v hv]
      exact huv
    exact List.pairwise_map.2 hs2
  · intro c
    show ((List.insertionSort countLE
        ((domOf d var).map (fun w => (ruleOutCount p d var w, w)))).map (·.2)).filter
        (fun w => decide (ruleOutCount p d var w = c)) =
      (domOf d var).filter (fun w => decide (ruleOutCount p d var w = c))
    rw [filter_key_map_snd (ruleOutCount p d var) c _ hmem, insertionSort_filter_key,
      ← filter_key_map_snd (ruleOutCount p d var) c _ hmem0, hsnd]

/-! ### ac3 on an already arc-consistent store -/

/-- Membership in the neighbor list. -/
theorem mem_neighbors (p : Puzzle) (x y : Var) :
    y ∈ neighbors p x ↔ y ∈ p.vars ∧ y ≠ x ∧ (p.overlaps x y).isSome := by
  unfold neighbors
  rw [List.mem_filter]
  simp [Bool.and_eq_true]

/-- Membership in the default initial worklist. -/
theorem mem_initialArcs (p : Puzzle) (e : Var × Var) :
    e ∈ initialArcs p ↔ e.1 ∈ p.vars ∧ e.2 ∈ neighbors p e.1 := by
  unfold initialArcs
  rw [List.mem_flatten]
  constructor
  · rintro ⟨l, hl, hel⟩
    rcases List.mem_map.1 hl with ⟨v, hv, rfl⟩
    rcases List.mem_map.1 hel with ⟨n, hn, rfl⟩
    exact ⟨hv, hn⟩
  · rintro ⟨h1, h2⟩
    refine ⟨(neighbors p e.1).map (fun n => (e.1, n)), List.mem_map_of_mem _ h1, ?_⟩
    exact List.mem_map.2 ⟨e.2, h2, by simp⟩

/-- Writing back the value a key already holds is a no-op. -/
theorem setDom_self (d : Domains) (x : Var) : setDom d x (domOf d x) = d := by
  induction d with
  | nil => rfl
  | cons e rest ih =>
    by_cases he : e.1 = x
    · simp only [setDom, if_pos he, domOf, if_pos he]
      rw [← he]
    · simp only [setDom, if_neg he, domOf, if_neg he]
      rw [ih]

/-- Unpacking arcConsistentB: every word of domain(x) has a support with an
equal letter in domain(y), for every neighbor arc (x, y). -/
theorem arcConsistentB_support (p : Puzzle) (d : Domains)
    (h : arcConsistentB p d = true) (x y : Var) (xi yi : Nat) (w : Word)
    (hx : x ∈ p.vars) (hy : y ∈ neighbors p x) (hov : p.overlaps x y = some (xi, yi))
    (hw : w ∈ domOf d x) :
    ∃ w2 ∈ domOf d y, ∃ c, w.get? xi = some c ∧ w2.get? yi = some c := by
  unfold arcConsistentB at h
  rw [List.all_eq_true] at h
  have h1 := h x hx
  rw [List.all_eq_true] at h1
  have h2 := h1 y hy
  simp only [hov] at h2
  rw [List.all_eq_true] at h2
  have h3 := h2 w hw
  rw [List.any_eq_true] at h3
  rcases h3 with ⟨w2, hw2, hmatch⟩
  cases hgx : w.get? xi with
  | none =>
    rw [hgx] at hmatch
    cases hgy : w2.get? yi with
    | none => rw [hgy] at hmatch; exact absurd hmatch (by simp)
    | some c2 => rw [hgy] at hmatch; exact absurd hmatch (by simp)
  | some c1 =>
    rw [hgx] at hmatch
    cases hgy : w2.get? yi with
    | none => rw [hgy] at hmatch; exact absurd hmatch (by simp)
    | some c2 =>
      rw [hgy] at hmatch
      simp only [beq_iff_eq] at hmatch
      exact ⟨w2, hw2, c1, rfl, by rw [hgy, hmatch]⟩

/-- On an arc-consistent store, revise removes nothing and reports no
change. -/
theorem revise_eq_of_consistent (p : Puzzle) (d : Domains)
    (hcons : arcConsistentB p d = true) (x y : Var)
    (hx : x ∈ p.vars) (hy : y ∈ neighbors p x) :
    revise p d x y = (d, false) := by
  rcases Option.isSome_iff_exists.1 ((mem_neighbors p x y).1 hy).2.2 with ⟨o, hov⟩
  rcases o with ⟨xi, yi⟩
  unfold revise
  rw [hov]
  simp only
  have hkeep : ∀ w ∈ domOf d x,
      (match w.get? xi with
      | some c => ((domOf d y).filterMap (fun w => w.get? yi)).contains c
      | none => false) = true := by
    intro w hw
    rcases arcConsistentB_support p d hcons x y xi yi w hx hy hov hw with
      ⟨w2, hw2, c, hc1, hc2⟩
    rw [hc1]
    have hcmem : c ∈ (domOf d y).filterMap (fun w => w.get? yi) :=
      List.mem_filterMap.2 ⟨w2, hw2, hc2⟩
    exact List.elem_eq_true_of_mem hcmem
  rw [List.filter_eq_self.2 hkeep, setDom_self]
  simp

/-- On an arc-consistent store whose arcs all connect real neighbor pairs,
the worklist loop pops each arc once, revises nothing, and succeeds with the
store untouched (each arc's source has a non-empty domain by assumption). -/
theorem ac3Loop_of_consistent (p : Puzzle) (d : Domains)
    (hcons : arcConsistentB p d = true)
    (hne : ∀ v ∈ p.vars, neighbors p v ≠ [] → domOf d v ≠ []) :
    ∀ arcs fuel, arcs.length < fuel →
      (∀ e ∈ arcs, e.1 ∈ p.vars ∧ e.2 ∈ neighbors p e.1) →
      ac3Loop p fuel d arcs = some (d, true) := by
  intro arcs
  induction arcs with
  | nil =>
    intro fuel hfuel _
    cases fuel with
    | zero => omega
    | succ f => rfl
  | cons e rest ih =>
    intro fuel hfuel harcs
    cases fuel with
    | zero => omega
    | succ f =>
      rcases e with ⟨x, y⟩
      have hx := (harcs (x, y) (by simp)).1
      have hy := (harcs (x, y) (by simp)).2
      have hrev := revise_eq_of_consistent p d hcons x y hx hy
      have hdx : domOf d x ≠ [] := by
        refine hne x hx ?_
        intro hnil
        rw [hnil] at hy
        exact absurd hy (List.not_mem_nil y)
      have hdx0 : ¬ (domOf d x).length = 0 := by
        intro h0
        exact hdx (List.length_eq_zero.1 h0)
      show ac3Loop p (f + 1) d ((x, y) :: rest) = some (d, true)
      simp only [ac3Loop, hrev, if_neg hdx0, if_neg (Bool.false_ne_true)]
      exact ih f (by simpa using Nat.lt_of_succ_lt_succ hfuel)
        (fun e he => harcs e (by simp [he]))

/-- C7 counterexample: the claim fails as stated.  On the crossing puzzle pC
with both domains empty, every neighbor arc is (vacuously) arc consistent,
yet ac3 returns False (the emptiness check fires on the first popped arc);
the domains are indeed left unchanged, but the claimed True result does not
hold. -/
theorem ac3_false_on_consistent_empty_store :
    arcConsistentB pC [(vAc, []), (vDn, [])] = true ∧
      (ac3 pC [(vAc, []), (vDn, [])] none).2 = false ∧
      (ac3 pC [(vAc, []), (vDn, [])] none).1 = [(vAc, []), (vDn, [])] := by
  decide

/-- C7 amended: on a store in which every neighbor arc is already consistent
and every variable that has a neighbor has a non-empty domain, ac3() leaves
every variable's domain exactly unchanged and returns True (and hence a
second run returns the same domains as the first). -/
theorem ac3_idempotent_on_consistent (p : Puzzle) (d : Domains)
    (hcons : arcConsistentB p d = true)
    (hne : ∀ v ∈ p.vars, neighbors p v ≠ [] → domOf d v ≠ []) :
    ac3 p d none = (d, true) := by
  unfold ac3
  have hrun := ac3Loop_of_consistent p d hcons hne (initialArcs p)
    (sigma d * ((initialArcs p).length + 1) + (initialArcs p).length + 1)
    (by omega) (fun e he => (mem_initialArcs p e).1 he)
  simp only [Option.getD]
  rw [hrun]

/-- Witness for ac3_idempotent_on_consistent: the crossing puzzle pC with
domains aa and ab is arc consistent and non-empty, and ac3 returns the
store unchanged with True. -/
theorem ac3_idempotent_on_consistent_witness :
    ac3 pC [(vAc, [['a', 'a']]), (vDn, [['a', 'b']])] none =
      ([(vAc, [['a', 'a']]), (vDn, [['a', 'b']])], true) :=
  ac3_idempotent_on_consistent pC [(vAc, [['a', 'a']]), (vDn, [['a', 'b']])]
    (by decide) (by decide)

/-! ### Variable selection lemmas -/

/-- Every variable produced by the MRV loop is either an incoming candidate
or an unassigned key of the scanned entries. -/
theorem svLoop_mem (a : Assignment) :
    ∀ (l : List (Var × List Word)) (m : Option Nat) (cands : List Var) (v : Var),
      v ∈ svLoop a l m cands →
      v ∈ cands ∨ ((∃ ws, (v, ws) ∈ l) ∧ lookupA a v = none) := by
  intro l
  induction l with
  | nil => intro m cands v hv; exact Or.inl hv
  | cons e rest ih =>
    rcases e with ⟨u, ws⟩
    intro m cands v hv
    have hpush : ∀ (m' : Option Nat) (cs : List Var), v ∈ svLoop a rest m' cs →
        v ∈ cs ∨ ((∃ w2, (v, w2) ∈ (u, ws) :: rest) ∧ lookupA a v = none) := by
      intro m' cs hv'
      rcases ih m' cs v hv' with h | h
      · exact Or.inl h
      · exact Or.inr ⟨⟨h.1.choose, List.mem_cons_of_mem _ h.1.choose_spec⟩, h.2⟩
    cases m with
    | none =>
      simp only [svLoop] at hv
      by_cases hu : (lookupA a u).isSome
      · rw [if_pos hu] at hv
        exact hpush none cands hv
      · rw [if_neg hu] at hv
        have hun : lookupA a u = none := Option.not_isSome_iff_eq_none.1 hu
        rcases hpush _ [u] hv with h | h
        · rcases List.mem_singleton.1 h with rfl
          exact Or.inr ⟨⟨ws, List.mem_cons_self _ _⟩, hun⟩
        · exact Or.inr h
    | some n =>
      simp only [svLoop] at hv
      by_cases hu : (lookupA a u).isSome
      · rw [if_pos hu] at hv
        exact hpush _ cands hv
      · rw [if_neg hu] at hv
        have hun : lookupA a u = none := Option.not_isSome_iff_eq_none.1 hu
        by_cases hlt : ws.length < n
        · rw [if_pos hlt] at hv
          rcases hpush _ [u] hv with h | h
          · rcases List.mem_singleton.1 h with rfl
            exact Or.inr ⟨⟨ws, List.mem_cons_self _ _⟩, hun⟩
          · exact Or.inr h
        · rw [if_neg hlt] at hv
          by_cases heq : ws.length = n
          · rw [if_pos heq] at hv
            rcases hpush _ (cands ++ [u]) hv with h | h
            · rcases List.mem_append.1 h with h | h
              · exact Or.inl h
              · rcases List.mem_singleton.1 h with rfl
                exact Or.inr ⟨⟨ws, List.mem_cons_self _ _⟩, hun⟩
            · exact Or.inr h
          · rw [if_neg heq] at hv
            exact hpush _ cands hv

/-- The MRV loop returns a non-empty candidate list whenever an unassigned
entry remains (or it already holds candidates); the running minimum is only
ever set alongside a non-empty candidate list. -/
theorem svLoop_ne_nil (a : Assignment) :
    ∀ (l : List (Var × List Word)) (m : Option Nat) (cands : List Var),
      ((∃ e ∈ l, lookupA a e.1 = none) ∨ cands ≠ []) →
      (m ≠ none → cands ≠ []) →
      svLoop a l m cands ≠ [] := by
  intro l
  induction l with
  | nil =>
    intro m cands h hm
    rcases h with ⟨e, he, _⟩ | h
    · exact absurd he (List.not_mem_nil e)
    · exact h
  | cons e rest ih =>
    rcases e with ⟨u, ws⟩
    intro m cands h hm
    have hrest : (∃ e ∈ rest, lookupA a e.1 = none) ∨ cands ≠ [] →
        (∀ hu : (lookupA a u).isSome, True) → True := fun _ _ => trivial
    cases m with
    | none =>
      simp only [svLoop]
      by_cases hu : (lookupA a u).isSome
      · rw [if_pos hu]
        refine ih none cands ?_ hm
        rcases h with ⟨e, he, hnone⟩ | h
        · rcases List.mem_cons.1 he with rfl | he2
          · rw [hnone] at hu; exact absurd hu (by simp)
          · exact Or.inl ⟨e, he2, hnone⟩
        · exact Or.inr h
      · rw [if_neg hu]
        exact ih (some ws.length) [u] (Or.inr (by simp)) (fun _ => by simp)
    | some n =>
      simp only [svLoop]
      by_cases hu : (lookupA a u).isSome
      · rw [if_pos hu]
        refine ih (some n) cands ?_ hm
        rcases h with ⟨e, he, hnone⟩ | h
        · rcases List.mem_cons.1 he with rfl | he2
          · rw [hnone] at hu; exact absurd hu (by simp)
          · exact Or.inl ⟨e, he2, hnone⟩
        · exact Or.inr h
      · rw [if_neg hu]
        by_cases hlt : ws.length < n
        · rw [if_pos hlt]
          exact ih (some ws.length) [u] (Or.inr (by simp)) (fun _ => by simp)
        · rw [if_neg hlt]
          by_cases heq : ws.length = n
          · rw [if_pos heq]
            exact ih (some n) (cands ++ [u]) (Or.inr (by simp)) (fun _ => by simp)
          · rw [if_neg heq]
            exact ih (some n) cands (Or.inr (hm (by simp))) hm

/-- If some scanned entry is an unassigned variable with an empty domain,
every candidate the MRV loop returns is unassigned with an empty domain
(the minimum domain size is forced to zero). -/
theorem svLoop_min0 (a : Assignment) (d : Domains) :
    ∀ (l : List (Var × List Word)) (m : Option Nat) (cands : List Var),
      (∀ e ∈ l, domOf d e.1 = e.2) →
      (m = some 0 → ∀ v ∈ cands, lookupA a v = none ∧ domOf d v = []) →
      ((∃ e ∈ l, lookupA a e.1 = none ∧ e.2 = ([] : List Word)) ∨ m = some 0) →
      ∀ v ∈ svLoop a l m cands, lookupA a v = none ∧ domOf d v = [] := by
  intro l
  induction l with
  | nil =>
    intro m cands _ h1 h2 v hv
    rcases h2 with ⟨e, he, _⟩ | h2
    · exact absurd he (List.not_mem_nil e)
    · exact h1 h2 v hv
  | cons e rest ih =>
    rcases e with ⟨u, ws⟩
    intro m cands hl h1 h2
    have hl' : ∀ e ∈ rest, domOf d e.1 = e.2 :=
      fun e he => hl e (List.mem_cons_of_mem _ he)
    have hdu : domOf d u = ws := hl (u, ws) (List.mem_cons_self _ _)
    cases m with
    | none =>
      simp only [svLoop]
      by_cases hu : (lookupA a u).isSome
      · rw [if_pos hu]
        refine ih none cands hl' h1 ?_
        rcases h2 with ⟨e, he, hcond⟩ | h2
        · rcases List.mem_cons.1 he with rfl | he2
          · rw [hcond.1] at hu; exact absurd hu (by simp)
          · exact Or.inl ⟨e, he2, hcond⟩
        · exact absurd h2 (by simp)
      · rw [if_neg hu]
        have hun : lookupA a u = none := Option.not_isSome_iff_eq_none.1 hu
        refine ih (some ws.length) [u] hl' ?_ ?_
        · intro hws v hv
          rcases List.mem_singleton.1 hv with rfl
          have hws0 : ws = [] := List.length_eq_zero.1 (by injection hws)
          exact ⟨hun, by rw [hdu, hws0]⟩
        · rcases h2 with ⟨e, he, hcond⟩ | h2
          · rcases List.mem_cons.1 he with rfl | he2
            · refine Or.inr ?_
              have hws0 : ws = [] := hcond.2
              rw [hws0]
              rfl
            · exact Or.inl ⟨e, he2, hcond⟩
          · exact absurd h2 (by simp)
    | some n =>
      simp only [svLoop]
      by_cases hu : (lookupA a u).isSome
      · rw [if_pos hu]
        refine ih (some n) cands hl' h1 ?_
        rcases h2 with ⟨e, he, hcond⟩ | h2
        · rcases List.mem_cons.1 he with rfl | he2
          · rw [hcond.1] at hu; exact absurd hu (by simp)
          · exact Or.inl ⟨e, he2, hcond⟩
        · exact Or.inr h2
      · rw [if_neg hu]
        have hun : lookupA a u = none := Option.not_isSome_iff_eq_none.1 hu
        by_cases hlt : ws.length < n
        · rw [if_pos hlt]
          refine ih (some ws.length) [u] hl' ?_ ?_
          · intro hws v hv
            rcases List.mem_singleton.1 hv with rfl
            have hws0 : ws = [] := List.length_eq_zero.1 (by injection hws)
            exact ⟨hun, by rw [hdu, hws0]⟩
          · rcases h2 with ⟨e, he, hcond⟩ | h2
            · rcases List.mem_cons.1 he with rfl | he2
              · refine Or.inr ?_
                have hws0 : ws = [] := hcond.2
                rw [hws0]
                rfl
              · exact Or.inl ⟨e, he2, hcond⟩
            · rcases h2 with h2
              have hn0 : n = 0 := by injection h2
              exact absurd hlt (by omega)
        · rw [if_neg hlt]
          by_cases heq : ws.length = n
          · rw [if_pos heq]
            refine ih (some n) (cands ++ [u]) hl' ?_ ?_
            · intro hm v hv
              have hn0 : n = 0 := by injection hm
              rcases List.mem_append.1 hv with hv | hv
              · exact h1 hm v hv
              · rcases List.mem_singleton.1 hv with rfl
                have hws0 : ws = [] := List.length_eq_zero.1 (by omega)
                exact ⟨hun, by rw [hdu, hws0]⟩
            · rcases h2 with ⟨e, he, hcond⟩ | h2
              · rcases List.mem_cons.1 he with rfl | he2
                · refine Or.inr ?_
                  have hws0 : ws = [] := hcond.2
                  have hn0 : n = 0 := by rw [← heq, hws0]; rfl
                  rw [hn0]
                · exact Or.inl ⟨e, he2, hcond⟩
              · exact Or.inr h2
          · rw [if_neg heq]
            refine ih (some n) cands hl' h1 ?_
            rcases h2 with ⟨e, he, hcond⟩ | h2
            · rcases List.mem_cons.1 he with rfl | he2
              · exfalso
                have hws0 : ws = [] := hcond.2
                have hws1 : ws.length = 0 := by rw [hws0]; rfl
                omega
              · exact Or.inl ⟨e, he2, hcond⟩
            · exact Or.inr h2

/-- The degree tie-break loop returns a member of its input (or the variable
already accumulated). -/
theorem maxDegLoop_mem (p : Puzzle) :
    ∀ (l : List Var) (acc : Option (Nat × Var)) (v : Var),
      maxDegLoop p l acc = some v → v ∈ l ∨ ∃ q, acc = some q ∧ v = q.2 := by
  intro l
  induction l with
  | nil =>
    intro acc v hv
    cases acc with
    | none => exact absurd hv (by simp [maxDegLoop])
    | some q =>
      simp only [maxDegLoop] at hv
      injection hv with h
      exact Or.inr ⟨q, rfl, h.symm⟩
  | cons u rest ih =>
    intro acc v hv
    cases acc with
    | none =>
      simp only [maxDegLoop] at hv
      rcases ih _ v hv with h | ⟨q, hq, hvq⟩
      · exact Or.inl (List.mem_cons_of_mem _ h)
      · injection hq with hq2
        rw [hvq, ← hq2]
        exact Or.inl (List.mem_cons_self _ _)
    | some mr =>
      rcases mr with ⟨m, r⟩
      simp only [maxDegLoop] at hv
      by_cases hdeg : (neighbors p u).length > m
      · rw [if_pos hdeg] at hv
        rcases ih _ v hv with h | ⟨q, hq, hvq⟩
        · exact Or.inl (List.mem_cons_of_mem _ h)
        · injection hq with hq2
          rw [hvq, ← hq2]
          exact Or.inl (List.mem_cons_self _ _)
      · rw [if_neg hdeg] at hv
        rcases ih _ v hv with h | ⟨q, hq, hvq⟩
        · exact Or.inl (List.mem_cons_of_mem _ h)
        · injection hq with hq2
          exact Or.inr ⟨(m, r), rfl, by rw [hvq, ← hq2]⟩

/-- The degree tie-break loop succeeds whenever it has anything to scan or
an accumulated candidate. -/
theorem maxDegLoop_isSome (p : Puzzle) :
    ∀ (l : List Var) (acc : Option (Nat × Var)), l ≠ [] ∨ acc ≠ none →
      (maxDegLoop p l acc).isSome := by
  intro l
  induction l with
  | nil =>
    intro acc h
    cases acc with
    | none => rcases h with h | h <;> exact absurd rfl h
    | some q => simp [maxDegLoop]
  | cons u rest ih =>
    intro acc _
    cases acc with
    | none =>
      simp only [maxDegLoop]
      exact ih _ (Or.inr (by simp))
    | some mr =>
      rcases mr with ⟨m, r⟩
      simp only [maxDegLoop]
      by_cases hdeg : (neighbors p u).length > m
      · rw [if_pos hdeg]; exact ih _ (Or.inr (by simp))
      · rw [if_neg hdeg]; exact ih _ (Or.inr (by simp))

/-- A selected variable is an unassigned key of the store. -/
theorem select_mem (p : Puzzle) (d : Domains) (a : Assignment) (v : Var)
    (h : select_unassigned_variable p d a = some v) :
    (∃ ws, (v, ws) ∈ d) ∧ lookupA a v = none := by
  unfold select_unassigned_variable at h
  by_cases hlen : (svLoop a d none []).length = 1
  · rw [if_pos hlen] at h
    have hv : v ∈ svLoop a d none [] := by
      cases hc : svLoop a d none [] with
      | nil => rw [hc] at h; exact absurd h (by simp)
      | cons x xs =>
        rw [hc] at h
        simp only [List.head?] at h
        injection h with h
        rw [← h]
        exact List.mem_cons_self _ _
    rcases svLoop_mem a d none [] v hv with h2 | h2
    · exact absurd h2 (List.not_mem_nil v)
    · exact h2
  · rw [if_neg hlen] at h
    rcases maxDegLoop_mem p _ none v h with h2 | ⟨q, hq, _⟩
    · rcases svLoop_mem a d none [] v h2 with h3 | h3
      · exact absurd h3 (List.not_mem_nil v)
      · exact h3
    · exact absurd hq (by simp)

/-- Selection succeeds whenever some key of the store is unassigned. -/
theorem select_isSome (p : Puzzle) (d : Domains) (a : Assignment)
    (h : ∃ e ∈ d, lookupA a e.1 = none) :
    (select_unassigned_variable p d a).isSome := by
  unfold select_unassigned_variable
  have hne : svLoop a d none [] ≠ [] :=
    svLoop_ne_nil a d none [] (Or.inl h) (fun hm => absurd rfl hm)
  by_cases hlen : (svLoop a d none []).length = 1
  · rw [if_pos hlen]
    cases hc : svLoop a d none [] with
    | nil => exact absurd hc hne
    | cons x xs => simp
  · rw [if_neg hlen]
    exact maxDegLoop_isSome p _ none (Or.inl hne)

/-! ### Key preservation along the solver pipeline -/

/-- The initial store is keyed by the puzzle's variables. -/
theorem keysOf_initDomains (p : Puzzle) (words : List Word) :
    keysOf (initDomains p words) = p.vars := by
  unfold keysOf initDomains
  rw [List.map_map]
  have hcomp : ((fun (e : Var × List Word) => e.1) ∘ fun v => (v, words)) =
      fun v : Var => v := rfl
  rw [hcomp, List.map_id']

/-- Node consistency enforcement keeps the keys. -/
theorem keysOf_enforce (d : Domains) :
    keysOf (enforce_node_consistency d) = keysOf d := by
  unfold keysOf enforce_node_consistency
  rw [List.map_map]
  rfl

/-- The ac3 worklist loop keeps the keys of the store. -/
theorem keysOf_ac3Loop (p : Puzzle) :
    ∀ (fuel : Nat) (d : Domains) (arcs : List (Var × Var)) (res : Domains × Bool),
      ac3Loop p fuel d arcs = some res → keysOf res.1 = keysOf d := by
  intro fuel
  induction fuel with
  | zero => intro d arcs res h; exact absurd h (by simp [ac3Loop])
  | succ f ih =>
    intro d arcs res h
    cases arcs with
    | nil =>
      simp only [ac3Loop] at h
      injection h with h
      rw [← h]
    | cons e rest =>
      rcases e with ⟨x, y⟩
      simp only [ac3Loop] at h
      by_cases h0 : (domOf (revise p d x y).1 x).length = 0
      · rw [if_pos h0] at h
        injection h with h
        rw [← h]
        exact keysOf_revise p d x y
      · rw [if_neg h0] at h
        by_cases hrev : (revise p d x y).2
        · rw [if_pos hrev] at h
          rw [ih _ _ _ h]
          exact keysOf_revise p d x y
        · rw [if_neg hrev] at h
          rw [ih _ _ _ h]
          exact keysOf_revise p d x y

/-- ac3 keeps the keys of the store. -/
theorem keysOf_ac3 (p : Puzzle) (d : Domains) (o : Option (List (Var × Var))) :
    keysOf (ac3 p d o).1 = keysOf d := by
  unfold ac3
  show keysOf (match ac3Loop p (sigma d * ((initialArcs p).length + 1) +
      (o.getD (initialArcs p)).length + 1) d (o.getD (initialArcs p)) with
    | some r => r
    | none => (d, false)).1 = keysOf d
  cases hl : ac3Loop p (sigma d * ((initialArcs p).length + 1) +
      (o.getD (initialArcs p)).length + 1) d (o.getD (initialArcs p)) with
  | none => rfl
  | some res => exact keysOf_ac3Loop p _ d _ res hl

/-- A key of the store owns its looked-up entry. -/
theorem mem_of_mem_keysOf (d : Domains) (v : Var) (h : v ∈ keysOf d) :
    (v, domOf d v) ∈ d := by
  induction d with
  | nil => exact absurd h (List.not_mem_nil v)
  | cons e rest ih =>
    by_cases he : e.1 = v
    · have : (v, domOf (e :: rest) v) = e := by
        rw [show domOf (e :: rest) v = e.2 by simp [domOf, if_pos he], ← he]
      rw [this]
      exact List.mem_cons_self _ _
    · have hv : v ∈ keysOf rest := by
        simp only [keysOf, List.map_cons, List.mem_cons] at h
        rcases h with h | h
        · exact absurd h.symm he
        · simpa [keysOf] using h
      have : domOf (e :: rest) v = domOf rest v := by simp [domOf, if_neg he]
      rw [this]
      exact List.mem_cons_of_mem _ (ih hv)

/-- With distinct keys, every entry of the store is what lookup returns. -/
theorem domOf_entries (d : Domains) (hnd : (keysOf d).Nodup) :
    ∀ e ∈ d, domOf d e.1 = e.2 := by
  induction d with
  | nil => intro e he; exact absurd he (List.not_mem_nil e)
  | cons f rest ih =>
    have hnd2 : (keysOf rest).Nodup := by
      simp only [keysOf, List.map_cons, List.nodup_cons] at hnd
      exact hnd.2
    have hf : f.1 ∉ keysOf rest := by
      simp only [keysOf, List.map_cons, List.nodup_cons] at hnd
      exact hnd.1
    intro e he
    rcases List.mem_cons.1 he with rfl | he2
    · simp [domOf]
    · have hne : ¬ f.1 = e.1 := by
        intro hh
        exact hf (hh ▸ List.mem_map_of_mem (fun q => q.1) he2)
      simp only [domOf, if_neg hne]
      exact ih hnd2 e he2

/-- Ordering the values of an empty domain yields no candidates. -/
theorem order_domain_values_nil (p : Puzzle) (d : Domains) (var : Var) (a : Assignment)
    (h : domOf d var = []) : order_domain_values p d var a = [] := by
  unfold order_domain_values
  rw [h]
  rfl

/-- A selected variable is unassigned with an empty domain whenever some
unassigned variable's domain is empty (MRV forces the minimum to zero). -/
theorem select_empty (p : Puzzle) (d : Domains) (a : Assignment) (v0 : Var)
    (hinv : ∀ e ∈ d, domOf d e.1 = e.2)
    (hex : ∃ e ∈ d, lookupA a e.1 = none ∧ e.2 = ([] : List Word))
    (h : select_unassigned_variable p d a = some v0) :
    lookupA a v0 = none ∧ domOf d v0 = [] := by
  unfold select_unassigned_variable at h
  have hall := svLoop_min0 a d d none [] hinv
    (fun h0 => absurd h0 (by simp)) (Or.inl hex)
  by_cases hlen : (svLoop a d none []).length = 1
  · rw [if_pos hlen] at h
    cases hc : svLoop a d none [] with
    | nil => rw [hc] at h; exact absurd h (by simp)
    | cons x xs =>
      rw [hc] at h
      simp only [List.head?] at h
      injection h with h
      refine hall v0 ?_
      rw [hc, ← h]
      exact List.mem_cons_self _ _
  · rw [if_neg hlen] at h
    rcases maxDegLoop_mem p _ none v0 h with h2 | ⟨q, hq, _⟩
    · exact hall v0 h2
    · exact absurd hq (by simp)

/-- C10: when the initial node-consistency and arc-consistency pass leaves
some variable's domain empty, solve raises no error and returns absence:
its discarded ac3 result notwithstanding, backtracking selects a variable
with an empty domain (MRV makes the empty domain the minimum), finds zero
candidates to try, and reports failure. -/
theorem solve_none_on_empty_domain (p : Puzzle) (words : List Word)
    (hnd : p.vars.Nodup)
    (hempty : ∃ v ∈ p.vars,
      domOf (ac3 p (enforce_node_consistency (initDomains p words)) none).1 v = []) :
    solve p words = none := by
  have hkeys : keysOf (ac3 p (enforce_node_consistency (initDomains p words)) none).1 =
      p.vars := by
    rw [keysOf_ac3, keysOf_enforce, keysOf_initDomains]
  set d2 := (ac3 p (enforce_node_consistency (initDomains p words)) none).1 with hd2
  have hlen2 : d2.length = p.vars.length := by
    rw [← hkeys]
    simp [keysOf]
  rcases hempty with ⟨v, hv, hdv⟩
  have hvne : p.vars ≠ [] := fun hh => absurd hv (by rw [hh]; exact List.not_mem_nil v)
  have hpos : 0 < d2.length := by
    rw [hlen2]
    exact List.length_pos.2 hvne
  have hmem : (v, domOf d2 v) ∈ d2 := mem_of_mem_keysOf d2 v (by rw [hkeys]; exact hv)
  have hinv : ∀ e ∈ d2, domOf d2 e.1 = e.2 := domOf_entries d2 (by rw [hkeys]; exact hnd)
  have hex : ∃ e ∈ d2, lookupA ([] : Assignment) e.1 = none ∧ e.2 = ([] : List Word) :=
    ⟨(v, domOf d2 v), hmem, rfl, hdv⟩
  have hsome : (select_unassigned_variable p d2 []).isSome :=
    select_isSome p d2 [] ⟨(v, domOf d2 v), hmem, rfl⟩
  rcases Option.isSome_iff_exists.1 hsome with ⟨v0, hsel⟩
  have hv0 := select_empty p d2 [] v0 hinv hex hsel
  have hcomp : assignment_complete d2 [] = false := by
    simp only [assignment_complete, List.length_nil, decide_eq_false_iff_not]
    omega
  show (backtrack p (d2.length + 1) d2 []).1 = none
  simp only [backtrack, hcomp, Bool.false_eq_true, if_false, hsel,
    order_domain_values_nil p d2 v0 [] hv0.2, btLoop]

/-- Witness for solve_none_on_empty_domain: on the crossing puzzle pB with
word list ab, cd the initial arc-consistency pass empties domain(vAc), and
solve returns absence. -/
theorem solve_none_on_empty_domain_witness : solve pB wordsB = none :=
  solve_none_on_empty_domain pB wordsB (by decide) (by decide)

/-! ### Soundness of the backtracking search -/

/-- A variable is unassigned exactly when it is not among the assignment's
keys. -/
theorem lookupA_eq_none_iff (a : Assignment) (v : Var) :
    lookupA a v = none ↔ v ∉ a.map (·.1) := by
  induction a with
  | nil => simp [lookupA]
  | cons e rest ih =>
    by_cases he : e.1 = v
    · simp [lookupA, if_pos he, he]
    · simp only [lookupA, if_neg he, List.map_cons, List.mem_cons, not_or, ih]
      constructor
      · intro h; exact ⟨fun hh => he hh.symm, h⟩
      · intro h; exact h.2

/-- A variable is assigned exactly when it is among the assignment's keys. -/
theorem lookupA_isSome_iff (a : Assignment) (v : Var) :
    (lookupA a v).isSome ↔ v ∈ a.map (·.1) := by
  constructor
  · intro h
    by_contra hmem
    rw [← lookupA_eq_none_iff] at hmem
    rw [hmem] at h
    exact absurd h (by simp)
  · intro h
    cases hl : lookupA a v with
    | none => exact absurd ((lookupA_eq_none_iff a v).1 hl) (by simp [h])
    | some w => rfl

/-- Appending a fresh binding keeps the assignment's keys distinct. -/
theorem nodup_keys_concat (a : Assignment) (var : Var) (w : Word)
    (h1 : (a.map (·.1)).Nodup) (h2 : lookupA a var = none) :
    ((a ++ [(var, w)]).map (·.1)).Nodup := by
  rw [List.map_append]
  rw [List.nodup_append]
  refine ⟨h1, List.nodup_singleton _, ?_⟩
  intro x hx hx2
  simp only [List.map_cons, List.map_nil, List.mem_singleton] at hx2
  rw [hx2] at hx
  exact (lookupA_eq_none_iff a var).1 h2 hx

/-- An assignment whose distinct keys exhaust the variable list assigns
every variable. -/
theorem covers_of_keys (p : Puzzle) (r : Assignment) (hvnd : p.vars.Nodup)
    (hkeys : ∀ e ∈ r, e.1 ∈ p.vars) (hnd : (r.map (·.1)).Nodup)
    (hlen : r.length = p.vars.length) : ∀ v ∈ p.vars, (lookupA r v).isSome := by
  intro v hv
  rw [lookupA_isSome_iff]
  have hsub : (r.map (·.1)).toFinset ⊆ p.vars.toFinset := by
    intro x hx
    rw [List.mem_toFinset] at hx
    rcases List.mem_map.1 hx with ⟨e, he, rfl⟩
    rw [List.mem_toFinset]
    exact hkeys e he
  have hcard1 : (r.map (·.1)).toFinset.card = r.length := by
    rw [List.toFinset_card_of_nodup hnd, List.length_map]
  have hcard2 : p.vars.toFinset.card = p.vars.length :=
    List.toFinset_card_of_nodup hvnd
  have heq : (r.map (·.1)).toFinset = p.vars.toFinset := by
    apply Finset.eq_of_subset_of_card_le hsub
    rw [hcard1, hcard2, hlen]
  have : v ∈ (r.map (·.1)).toFinset := by
    rw [heq, List.mem_toFinset]
    exact hv
  rw [List.mem_toFinset] at this
  exact this

/-- The candidate loop only transforms the store through ac3, so it keeps
the store's keys whenever the recursive call does. -/
theorem btLoop_keys (p : Puzzle) (recur : Domains → Assignment → Option Assignment × Domains)
    (Hk : ∀ d a, keysOf (recur d a).2 = keysOf d) :
    ∀ (trials : List Word) (a : Assignment) (var : Var) (d : Domains),
      keysOf (btLoop p recur a var trials d).2 = keysOf d := by
  intro trials
  induction trials with
  | nil => intro a var d; rfl
  | cons trial rest ih =>
    intro a var d
    simp only [btLoop]
    by_cases hcons : consistent p (a ++ [(var, trial)])
    · rw [if_pos hcons]
      by_cases hok : (ac3 p d none).2 = true
      · rw [if_pos hok]
        rcases hr : recur (ac3 p d none).1 (a ++ [(var, trial)]) with ⟨or, d2⟩
        have hd2 : keysOf d2 = keysOf d := by
          have := Hk (ac3 p d none).1 (a ++ [(var, trial)])
          rw [hr] at this
          rw [this, keysOf_ac3]
        cases or with
        | some res => simpa using hd2
        | none => rw [ih a var d2]; exact hd2
      · rw [if_neg hok]
        rw [ih a var (ac3 p d none).1, keysOf_ac3]
    · rw [if_neg hcons]
      exact ih a var d

/-- The backtracking search keeps the store's keys. -/
theorem backtrack_keys (p : Puzzle) :
    ∀ (fuel : Nat) (d : Domains) (a : Assignment),
      keysOf (backtrack p fuel d a).2 = keysOf d := by
  intro fuel
  induction fuel with
  | zero => intro d a; rfl
  | succ f ih =>
    intro d a
    simp only [backtrack]
    by_cases hc : assignment_complete d a = true
    · rw [if_pos hc]
    · rw [if_neg hc]
      cases hs : select_unassigned_variable p d a with
      | none => rfl
      | some var => exact btLoop_keys p (backtrack p f) (fun d a => ih d a) _ a var d

/-- Soundness of the candidate loop: any assignment it returns was produced
by a recursive call on a consistent extension (or is such an extension
itself), so it satisfies the recursive call's guarantee. -/
theorem btLoop_sound (p : Puzzle)
    (recur : Domains → Assignment → Option Assignment × Domains)
    (Hk : ∀ d a, keysOf (recur d a).2 = keysOf d)
    (Hrec : ∀ d a r d', keysOf d = p.vars → consistent p a = true →
      (∀ e ∈ a, e.1 ∈ p.vars) → (a.map (·.1)).Nodup →
      recur d a = (some r, d') →
      consistent p r = true ∧ (∀ e ∈ r, e.1 ∈ p.vars) ∧ (r.map (·.1)).Nodup ∧
        r.length = p.vars.length) :
    ∀ (trials : List Word) (d : Domains) (a : Assignment) (var : Var)
      (r : Assignment) (d' : Domains),
      keysOf d = p.vars → (∀ e ∈ a, e.1 ∈ p.vars) → (a.map (·.1)).Nodup →
      var ∈ p.vars → lookupA a var = none →
      btLoop p recur a var trials d = (some r, d') →
      consistent p r = true ∧ (∀ e ∈ r, e.1 ∈ p.vars) ∧ (r.map (·.1)).Nodup ∧
        r.length = p.vars.length := by
  intro trials
  induction trials with
  | nil =>
    intro d a var r d' _ _ _ _ _ h
    simp only [btLoop] at h
    exact absurd h (by simp)
  | cons trial rest ih =>
    intro d a var r d' hd hak hand hvar hunass h
    simp only [btLoop] at h
    by_cases hcons : consistent p (a ++ [(var, trial)])
    · rw [if_pos hcons] at h
      by_cases hok : (ac3 p d none).2 = true
      · rw [if_pos hok] at h
        rcases hr : recur (ac3 p d none).1 (a ++ [(var, trial)]) with ⟨or, d2⟩
        rw [hr] at h
        cases or with
        | some res =>
          injection h with h1 h2
          injection h1 with h1
          subst h1
          subst h2
          refine Hrec (ac3 p d none).1 (a ++ [(var, trial)]) res d2 ?_ hcons ?_ ?_ hr
          · rw [keysOf_ac3]; exact hd
          · intro e he
            rcases List.mem_append.1 he with he | he
            · exact hak e he
            · rcases List.mem_singleton.1 he with rfl
              exact hvar
          · exact nodup_keys_concat a var trial hand hunass
        | none =>
          have hd2 : keysOf d2 = p.vars := by
            have hb := Hk (ac3 p d none).1 (a ++ [(var, trial)])
            rw [hr] at hb
            rw [hb, keysOf_ac3]
            exact hd
          exact ih d2 a var r d' hd2 hak hand hvar hunass h
      · rw [if_neg hok] at h
        exact ih (ac3 p d none).1 a var r d' (by rw [keysOf_ac3]; exact hd)
          hak hand hvar hunass h
    · rw [if_neg hcons] at h
      exact ih d a var r d' hd hak hand hvar hunass h

/-- Soundness of backtrack: starting from a consistent partial assignment
over the puzzle's variables, any assignment it returns is consistent and
assigns exactly as many variables as the puzzle has. -/
theorem backtrack_sound (p : Puzzle) :
    ∀ (fuel : Nat) (d : Domains) (a : Assignment) (r : Assignment) (d' : Domains),
      keysOf d = p.vars → consistent p a = true →
      (∀ e ∈ a, e.1 ∈ p.vars) → (a.map (·.1)).Nodup →
      backtrack p fuel d a = (some r, d') →
      consistent p r = true ∧ (∀ e ∈ r, e.1 ∈ p.vars) ∧ (r.map (·.1)).Nodup ∧
        r.length = p.vars.length := by
  intro fuel
  induction fuel with
  | zero =>
    intro d a r d' _ _ _ _ h
    exact absurd h (by simp [backtrack])
  | succ f ih =>
    intro d a r d' hd hcons hak hand h
    simp only [backtrack] at h
    by_cases hc : assignment_complete d a = true
    · rw [if_pos hc] at h
      injection h with h1 h2
      injection h1 with h1
      subst h1
      refine ⟨hcons, hak, hand, ?_⟩
      have hlen : a.length = d.length := by
        simpa [assignment_complete] using hc
      have : d.length = p.vars.length := by
        have := congrArg List.length hd
        simpa [keysOf] using this
      rw [hlen, this]
    · rw [if_neg hc] at h
      cases hs : select_unassigned_variable p d a with
      | none => rw [hs] at h; exact absurd h (by simp)
      | some var =>
        rw [hs] at h
        have hv := select_mem p d a var hs
        have hvv : var ∈ p.vars := by
          rcases hv.1 with ⟨ws, hws⟩
          rw [← hd]
          exact List.mem_map_of_mem (fun q => q.1) hws
        exact btLoop_sound p (backtrack p f) (fun d a => backtrack_keys p f d a)
          (fun d a r d' => ih d a r d') _ d a var r d' hd hak hand hvv hv.2 h

/-- C1 (soundness of solve): every assignment solve returns is complete
(assigns a word to every variable of the puzzle) and passes consistent:
no duplicated word, every word of its variable's length, and matching
letters at the overlap offsets of every neighbor pair. -/
theorem solve_sound (p : Puzzle) (words : List Word) (r : Assignment)
    (hnd : p.vars.Nodup) (h : solve p words = some r) :
    consistent p r = true ∧ ∀ v ∈ p.vars, (lookupA r v).isSome := by
  have hkeys : keysOf (ac3 p (enforce_node_consistency (initDomains p words)) none).1 =
      p.vars := by
    rw [keysOf_ac3, keysOf_enforce, keysOf_initDomains]
  set d2 := (ac3 p (enforce_node_consistency (initDomains p words)) none).1 with hd2
  have h2 : (backtrack p (d2.length + 1) d2 []).1 = some r := h
  rcases hb : backtrack p (d2.length + 1) d2 [] with ⟨or, dfin⟩
  rw [hb] at h2
  simp only at h2
  subst h2
  have hs := backtrack_sound p (d2.length + 1) d2 [] r dfin hkeys rfl
    (fun e he => absurd he (List.not_mem_nil e)) List.nodup_nil hb
  exact ⟨hs.1, covers_of_keys p r hnd hs.2.1 hs.2.2.1 hs.2.2.2⟩

/-- Witness for solve_sound: on the single-slot puzzle pA with word list
containing only the fitting word a, solve returns that assignment, which is
complete and consistent. -/
theorem solve_sound_witness :
    consistent pA [(vA, ['a'])] = true ∧ ∀ v ∈ pA.vars, (lookupA [(vA, ['a'])] v).isSome :=
  solve_sound pA [['a']] [(vA, ['a'])] (by decide) (by decide)

/-! ### Facts extracted from a passing consistency check -/

/-- A successful lookup returns an entry of the assignment. -/
theorem lookupA_some_mem (a : Assignment) (v : Var) (w : Word)
    (h : lookupA a v = some w) : (v, w) ∈ a := by
  induction a with
  | nil => exact absurd h (by simp [lookupA])
  | cons e rest ih =>
    by_cases he : e.1 = v
    · simp only [lookupA, if_pos he] at h
      injection h with h
      have : (v, w) = e := by rw [← he, ← h]
      rw [this]
      exact List.mem_cons_self _ _
    · simp only [lookupA, if_neg he] at h
      exact List.mem_cons_of_mem _ (ih h)

/-- Looking up in an extended assignment first consults the old part. -/
theorem lookupA_append (a b : Assignment) (v : Var) :
    lookupA (a ++ b) v =
      match lookupA a v with
      | some w => some w
      | none => lookupA b v := by
  induction a with
  | nil => simp [lookupA]
  | cons e rest ih =>
    by_cases he : e.1 = v
    · simp [lookupA, if_pos he]
    · simp only [List.cons_append, lookupA, if_neg he]
      exact ih

/-- Everything a passing consistency-check loop scanned: correct lengths,
matching overlaps with all assigned neighbors, and values that are distinct
and avoid the accumulator. -/
theorem consistentLoop_facts (p : Puzzle) (full : Assignment) :
    ∀ (l : Assignment) (used : List Word), consistentLoop p full l used = true →
      (∀ e ∈ l, e.2.length = e.1.len ∧
        ∀ y ∈ neighbors p e.1, ∀ wy, lookupA full y = some wy →
          pair_consistent p (e.1, e.2) (y, wy) = true) ∧
      (l.map (·.2)).Nodup ∧ (∀ w ∈ l.map (·.2), w ∉ used) := by
  intro l
  induction l with
  | nil =>
    intro used _
    exact ⟨fun e he => absurd he (List.not_mem_nil e), List.nodup_nil,
      fun w hw => absurd hw (List.not_mem_nil w)⟩
  | cons e rest ih =>
    rcases e with ⟨v, w⟩
    intro used h
    simp only [consistentLoop] at h
    by_cases hused : used.contains w
    · rw [if_pos hused] at h
      exact absurd h (by simp)
    · rw [if_neg hused] at h
      by_cases hlen : w.length ≠ v.len
      · rw [if_pos (by simpa using hlen)] at h
        exact absurd h (by simp)
      · rw [if_neg (by simpa using hlen)] at h
        by_cases hnb : (neighbors p v).all (fun v2 =>
            match lookupA full v2 with
            | some w2 => pair_consistent p (v, w) (v2, w2)
            | none => true) = true
        · rw [if_pos hnb] at h
          rcases ih (w :: used) h with ⟨hfacts, hnodup, hdisj⟩
          have hwuse : w ∉ used := by
            intro hmem
            exact absurd (List.elem_eq_true_of_mem hmem) (by simpa using hused)
          refine ⟨?_, ?_, ?_⟩
          · intro e he
            rcases List.mem_cons.1 he with rfl | he2
            · refine ⟨not_not.1 hlen, ?_⟩
              intro y hy wy hwy
              have := List.all_eq_true.1 hnb y hy
              rw [hwy] at this
              exact this
            · exact hfacts e he2
          · simp only [List.map_cons, List.nodup_cons]
            refine ⟨?_, hnodup⟩
            intro hmem
            exact (hdisj w hmem) (List.mem_cons_self _ _)
          · intro w2 hw2 hw2mem
            rcases List.mem_cons.1 hw2 with rfl | hw2r
            · exact hwuse hw2mem
            · exact (hdisj w2 hw2r) (List.mem_cons_of_mem _ hw2mem)
        · rw [if_neg hnb] at h
          exact absurd h (by simp)

/-- A list whose mapped values are distinct maps distinct elements to
distinct values. -/
theorem values_injective (a : Assignment) (hvals : (a.map (·.2)).Nodup)
    (e1 e2 : Var × Word) (h1 : e1 ∈ a) (h2 : e2 ∈ a) (hv : e1.2 = e2.2) :
    e1 = e2 :=
  List.inj_on_of_nodup_map hvals h1 h2 hv

/-! ### Worklist and store-size bookkeeping for the ac3 termination bound -/

/-- Looking up an absent key yields the empty domain. -/
theorem domOf_of_not_mem (d : Domains) (x : Var) (h : ¬ x ∈ keysOf d) :
    domOf d x = [] := by
  induction d with
  | nil => rfl
  | cons e rest ih =>
    have he : ¬ e.1 = x := fun hh => h (by simp [keysOf, hh])
    simp only [domOf, if_neg he]
    refine ih ?_
    intro hh
    refine h ?_
    simp only [keysOf, List.map_cons, List.mem_cons]
    exact Or.inr (by simpa [keysOf] using hh)

/-- Replacing a present key's domain trades its size against the new one in
the store's total size. -/
theorem sigma_setDom (d : Domains) (x : Var) (ws : List Word) (h : x ∈ keysOf d) :
    sigma (setDom d x ws) + (domOf d x).length = sigma d + ws.length := by
  induction d with
  | nil => simp [keysOf] at h
  | cons e rest ih =>
    by_cases he : e.1 = x
    · have h1 : setDom (e :: rest) x ws = (x, ws) :: rest := by simp [setDom, if_pos he]
      have h2 : domOf (e :: rest) x = e.2 := by simp [domOf, if_pos he]
      rw [h1, h2]
      simp only [sigma, List.map_cons, List.sum_cons]
      omega
    · have hx : x ∈ keysOf rest := by
        simp only [keysOf, List.map_cons, List.mem_cons] at h
        rcases h with h | h
        · exact absurd h.symm he
        · simpa [keysOf] using h
      have h1 : setDom (e :: rest) x ws = e :: setDom rest x ws := by
        simp [setDom, if_neg he]
      have h2 : domOf (e :: rest) x = domOf rest x := by simp [domOf, if_neg he]
      rw [h1, h2]
      simp only [sigma, List.map_cons, List.sum_cons]
      have h3 := ih hx
      simp only [sigma] at h3
      omega

/-- A revision that reports no change leaves the store untouched. -/
theorem revise_fst_of_not_revised (p : Puzzle) (d : Domains) (x y : Var)
    (h : (revise p d x y).2 = false) : (revise p d x y).1 = d := by
  unfold revise at h ⊢
  cases hov : p.overlaps x y with
  | none => rfl
  | some o =>
    rcases o with ⟨xi, yi⟩
    simp only [hov] at h ⊢
    simp only [decide_eq_false_iff_not, not_not] at h
    have heq := (List.filter_sublist (l := domOf d x)).eq_of_length h
    rw [heq, setDom_self]

/-- A revision that reports a change strictly shrinks the store's total
size. -/
theorem sigma_revise_lt (p : Puzzle) (d : Domains) (x y : Var)
    (h : (revise p d x y).2 = true) : sigma (revise p d x y).1 < sigma d := by
  unfold revise at h ⊢
  cases hov : p.overlaps x y with
  | none => simp [hov] at h
  | some o =>
    rcases o with ⟨xi, yi⟩
    simp only [hov] at h ⊢
    simp only [decide_eq_true_eq] at h
    have hle : (List.filter (fun w =>
        match w.get? xi with
        | some c => ((domOf d y).filterMap (fun w => w.get? yi)).contains c
        | none => false) (domOf d x)).length ≤ (domOf d x).length :=
      (List.filter_sublist _).length_le
    have hx : x ∈ keysOf d := by
      by_contra hx
      have h0 : domOf d x = [] := domOf_of_not_mem d x hx
      rw [h0] at h
      simp at h
    have h3 := sigma_setDom d x (List.filter (fun w =>
        match w.get? xi with
        | some c => ((domOf d y).filterMap (fun w => w.get? yi)).contains c
        | none => false) (domOf d x)) hx
    omega

/-- Distinct elements drawn from a list are no more numerous than it. -/
theorem nodup_subset_length {α : Type} [DecidableEq α] (l m : List α)
    (hnd : l.Nodup) (hsub : l ⊆ m) : l.length ≤ m.length := by
  have h1 : l.toFinset.card = l.length := List.toFinset_card_of_nodup hnd
  have h2 : l.toFinset ⊆ m.toFinset := by
    intro e he
    rw [List.mem_toFinset] at he ⊢
    exact hsub he
  calc l.length = l.toFinset.card := h1.symm
    _ ≤ m.toFinset.card := Finset.card_le_card h2
    _ ≤ m.length := m.toFinset_card_le

/-- The re-enqueue step keeps the worklist free of duplicates and inside the
set of neighbor arcs. -/
theorem enqueueArcs_good (p : Puzzle) (x : Var) (hx : x ∈ p.vars) :
    ∀ (ks : List Var) (acc : List (Var × Var)), (∀ k ∈ ks, k ∈ neighbors p x) →
      acc.Nodup → acc ⊆ initialArcs p →
      (ks.foldl (fun acc k => if (x, k) ∈ acc then acc else acc ++ [(x, k)]) acc).Nodup ∧
        (ks.foldl (fun acc k => if (x, k) ∈ acc then acc else acc ++ [(x, k)]) acc) ⊆
          initialArcs p := by
  intro ks
  induction ks with
  | nil => intro acc _ h1 h2; exact ⟨h1, h2⟩
  | cons k rest ih =>
    intro acc hks h1 h2
    simp only [List.foldl_cons]
    by_cases hmem : (x, k) ∈ acc
    · rw [if_pos hmem]
      exact ih acc (fun k2 hk2 => hks k2 (List.mem_cons_of_mem _ hk2)) h1 h2
    · rw [if_neg hmem]
      refine ih (acc ++ [(x, k)]) (fun k2 hk2 => hks k2 (List.mem_cons_of_mem _ hk2)) ?_ ?_
      · rw [List.nodup_append]
        refine ⟨h1, List.nodup_singleton _, ?_⟩
        intro e he he2
        rcases List.mem_singleton.1 he2 with rfl
        exact hmem he
      · intro e he
        rcases List.mem_append.1 he with he | he
        · exact h2 he
        · rcases List.mem_singleton.1 he with rfl
          exact (mem_initialArcs p (x, k)).2 ⟨hx, hks k (List.mem_cons_self _ _)⟩

/-- The key invariant of the completeness argument: a target solution A
still draws every variable's word from the live store. -/
def solAInv (p : Puzzle) (A : Var → Word) (d : Domains) : Prop :=
  ∀ v ∈ p.vars, A v ∈ domOf d v

/-- revise never removes a solution's word: the word A x keeps its support
A y in domain(y), so the filter retains it; all other domains are
untouched. -/
theorem revise_AInv (p : Puzzle) (A : Var → Word) (d : Domains) (x y : Var)
    (hov : ∀ u v i j, p.overlaps u v = some (i, j) → i < u.len ∧ j < v.len)
    (hlen : ∀ v ∈ p.vars, (A v).length = v.len)
    (hpair : ∀ u ∈ p.vars, ∀ v ∈ neighbors p u,
      pair_consistent p (u, A u) (v, A v) = true)
    (hx : x ∈ p.vars) (hy : y ∈ neighbors p x)
    (hInv : solAInv p A d) : solAInv p A (revise p d x y).1 := by
  intro v hv
  by_cases hvx : v = x
  · subst hvx
    have hyvars : y ∈ p.vars := ((mem_neighbors p v y).1 hy).1
    rcases Option.isSome_iff_exists.1 ((mem_neighbors p v y).1 hy).2.2 with ⟨o, hovxy⟩
    rcases o with ⟨xi, yi⟩
    have hxi : xi < v.len := (hov v y xi yi hovxy).1
    have hyi : yi < y.len := (hov v y xi yi hovxy).2
    have hgx : (A v).get? xi = some ((A v).get ⟨xi, by rw [hlen v hv]; exact hxi⟩) :=
      List.get?_eq_get _
    have hgy : (A y).get? yi = some ((A y).get ⟨yi, by rw [hlen y hyvars]; exact hyi⟩) :=
      List.get?_eq_get _
    have hp := hpair v hv y hy
    unfold pair_consistent at hp
    simp only [hovxy] at hp
    rw [hgx, hgy] at hp
    simp only [beq_iff_eq, Option.some.injEq] at hp
    unfold revise
    simp only [hovxy]
    have hmemx := hInv v hv
    have hkeep : (match (A v).get? xi with
        | some c => ((domOf d y).filterMap (fun w => w.get? yi)).contains c
        | none => false) = true := by
      rw [hgx]
      refine List.elem_eq_true_of_mem (List.mem_filterMap.2 ⟨A y, hInv y hyvars, ?_⟩)
      rw [hgy, hp]
    by_cases hk : v ∈ keysOf d
    · rw [domOf_setDom_self_of_mem d v _ hk]
      exact List.mem_filter.2 ⟨hmemx, hkeep⟩
    · exact absurd hmemx (by rw [domOf_of_not_mem d v hk]; exact List.not_mem_nil _)
  · rw [(revise_frame p d x y).2 v hvx]
    exact hInv v hv

/-- With enough fuel, the ac3 worklist loop run on a store still containing
a solution can never empty a domain, so it reaches the empty worklist and
succeeds, still containing the solution. -/
theorem ac3Loop_AInv (p : Puzzle) (A : Var → Word)
    (hov : ∀ u v i j, p.overlaps u v = some (i, j) → i < u.len ∧ j < v.len)
    (hlen : ∀ v ∈ p.vars, (A v).length = v.len)
    (hpair : ∀ u ∈ p.vars, ∀ v ∈ neighbors p u,
      pair_consistent p (u, A u) (v, A v) = true) :
    ∀ (fuel : Nat) (d : Domains) (arcs : List (Var × Var)),
      arcs.Nodup → arcs ⊆ initialArcs p →
      sigma d * ((initialArcs p).length + 1) + arcs.length < fuel →
      solAInv p A d →
      ∃ d', ac3Loop p fuel d arcs = some (d', true) ∧ solAInv p A d' := by
  intro fuel
  induction fuel with
  | zero =>
    intro d arcs _ _ hm _
    omega
  | succ f ih =>
    intro d arcs hnd hsub hμ hInv
    cases arcs with
    | nil => exact ⟨d, rfl, hInv⟩
    | cons e rest =>
      rcases e with ⟨x, y⟩
      have harc := hsub (List.mem_cons_self (x, y) rest)
      have hx : x ∈ p.vars := ((mem_initialArcs p (x, y)).1 harc).1
      have hy : y ∈ neighbors p x := ((mem_initialArcs p (x, y)).1 harc).2
      have hInv1 : solAInv p A (revise p d x y).1 :=
        revise_AInv p A d x y hov hlen hpair hx hy hInv
      have hne : ¬ (domOf (revise p d x y).1 x).length = 0 := by
        intro h0
        have := hInv1 x hx
        rw [List.length_eq_zero.1 h0] at this
        exact absurd this (List.not_mem_nil _)
      have hrest_nd : rest.Nodup := (List.nodup_cons.1 hnd).2
      have hrest_sub : rest ⊆ initialArcs p :=
        fun e he => hsub (List.mem_cons_of_mem _ he)
      by_cases hrev : (revise p d x y).2 = true
      · have harcs2 := enqueueArcs_good p x hx (neighbors p x) rest
          (fun k hk => hk) hrest_nd hrest_sub
        have hσ : sigma (revise p d x y).1 < sigma d := sigma_revise_lt p d x y hrev
        have hlen2 : (enqueueArcs p x rest).length ≤ (initialArcs p).length :=
          nodup_subset_length _ _ harcs2.1 harcs2.2
        have hμ2 : sigma (revise p d x y).1 * ((initialArcs p).length + 1) +
            (enqueueArcs p x rest).length < f := by
          have key : sigma (revise p d x y).1 * ((initialArcs p).length + 1) +
              (enqueueArcs p x rest).length <
              sigma d * ((initialArcs p).length + 1) := by
            have h2 : (sigma (revise p d x y).1 + 1) * ((initialArcs p).length + 1) ≤
                sigma d * ((initialArcs p).length + 1) :=
              Nat.mul_le_mul_right _ (by omega)
            have h3 : sigma (revise p d x y).1 * ((initialArcs p).length + 1) +
                ((initialArcs p).length + 1) =
                (sigma (revise p d x y).1 + 1) * ((initialArcs p).length + 1) := by
              ring
            omega
          simp only [List.length_cons] at hμ
          omega
        obtain ⟨d', hrun, hInv'⟩ := ih (revise p d x y).1 (enqueueArcs p x rest)
          harcs2.1 harcs2.2 hμ2 hInv1
        refine ⟨d', ?_, hInv'⟩
        show ac3Loop p (f + 1) d ((x, y) :: rest) = some (d', true)
        simp only [ac3Loop, if_neg hne, if_pos hrev]
        exact hrun
      · have hid : (revise p d x y).1 = d :=
          revise_fst_of_not_revised p d x y (by simpa using hrev)
        have hμ2 : sigma d * ((initialArcs p).length + 1) + rest.length < f := by
          simp only [List.length_cons] at hμ
          omega
        obtain ⟨d', hrun, hInv'⟩ := ih d rest hrest_nd hrest_sub hμ2 hInv
        refine ⟨d', ?_, hInv'⟩
        show ac3Loop p (f + 1) d ((x, y) :: rest) = some (d', true)
        have hne2 : ¬ (domOf d x).length = 0 := by rw [← hid]; exact hne
        simp only [ac3Loop, hid, if_neg hne2, if_neg hrev]
        exact hrun

/-- With distinct variables, the initial worklist has no duplicate arcs. -/
theorem initialArcs_nodup (p : Puzzle) (h : p.vars.Nodup) : (initialArcs p).Nodup := by
  unfold initialArcs
  rw [List.nodup_flatten]
  constructor
  · intro l hl
    rcases List.mem_map.1 hl with ⟨v, _, rfl⟩
    refine List.Nodup.map ?_ (h.filter _)
    intro a b hab
    injection hab with h1 h2
  · have hpw : p.vars.Pairwise (· ≠ ·) := h
    have := List.Pairwise.map (f := fun v => (neighbors p v).map (fun n => (v, n)))
      (S := List.Disjoint)
      (fun a b hab => by
        intro e he1 he2
        rcases List.mem_map.1 he1 with ⟨n1, _, rfl⟩
        rcases List.mem_map.1 he2 with ⟨n2, _, heq⟩
        injection heq with h1 h2
        exact hab h1.symm)
      hpw
    exact this

/-- On a store still containing a solution, ac3 with the default worklist
succeeds and keeps the solution available. -/
theorem ac3_AInv (p : Puzzle) (A : Var → Word) (hvars : p.vars.Nodup)
    (hov : ∀ u v i j, p.overlaps u v = some (i, j) → i < u.len ∧ j < v.len)
    (hlen : ∀ v ∈ p.vars, (A v).length = v.len)
    (hpair : ∀ u ∈ p.vars, ∀ v ∈ neighbors p u,
      pair_consistent p (u, A u) (v, A v) = true)
    (d : Domains) (hInv : solAInv p A d) :
    ∃ d', ac3 p d none = (d', true) ∧ solAInv p A d' := by
  obtain ⟨d', hrun, hInv'⟩ := ac3Loop_AInv p A hov hlen hpair
    (sigma d * ((initialArcs p).length + 1) + (initialArcs p).length + 1)
    d (initialArcs p) (initialArcs_nodup p hvars) (fun e he => he) (by omega) hInv
  refine ⟨d', ?_, hInv'⟩
  show (match ac3Loop p (sigma d * ((initialArcs p).length + 1) +
      (initialArcs p).length + 1) d (initialArcs p) with
    | some r => r
    | none => (d, false)) = (d', true)
  rw [hrun]

/-! ### Sub-assignments of a solution pass the consistency check -/

/-- Looking up a variable other than the appended one ignores the
extension. -/
theorem lookupA_append_ne (a : Assignment) (var v : Var) (w : Word) (h : v ≠ var) :
    lookupA (a ++ [(var, w)]) v = lookupA a v := by
  rw [lookupA_append]
  cases hl : lookupA a v with
  | some w2 => rfl
  | none =>
    have hvv : ¬ var = v := fun hh => h hh.symm
    simp [lookupA, hvv]

/-- Looking up the appended variable finds it when it was unassigned. -/
theorem lookupA_append_self (a : Assignment) (var : Var) (w : Word)
    (h : lookupA a var = none) : lookupA (a ++ [(var, w)]) var = some w := by
  rw [lookupA_append, h]
  simp [lookupA]

/-- The consistency-check loop accepts entries drawn from a solution: the
words have the right lengths, match at every assigned neighbor overlap, and
repeat no word of the accumulator or of each other. -/
theorem consistentLoop_of_A_trail (p : Puzzle) (A : Var → Word)
    (hlen : ∀ v ∈ p.vars, (A v).length = v.len)
    (hpair : ∀ u ∈ p.vars, ∀ v ∈ neighbors p u,
      pair_consistent p (u, A u) (v, A v) = true)
    (hinj : ∀ u ∈ p.vars, ∀ v ∈ p.vars, u ≠ v → A u ≠ A v)
    (s : Assignment) (hs : ∀ e ∈ s, e.1 ∈ p.vars ∧ e.2 = A e.1) :
    ∀ (l : Assignment) (used : List Word),
      (∀ e ∈ l, e.1 ∈ p.vars ∧ e.2 = A e.1) →
      (l.map (·.1)).Nodup →
      (∀ w ∈ used, ∀ e ∈ l, w ≠ e.2) →
      consistentLoop p s l used = true := by
  intro l
  induction l with
  | nil => intro used _ _ _; rfl
  | cons e rest ih =>
    rcases e with ⟨v, w⟩
    intro used hl hnd hdisj
    have hv : v ∈ p.vars := (hl (v, w) (List.mem_cons_self _ _)).1
    have hw : w = A v := (hl (v, w) (List.mem_cons_self _ _)).2
    have hwused : w ∉ used := by
      intro hmem
      exact hdisj w hmem (v, w) (List.mem_cons_self _ _) rfl
    have hcont : ¬ (used.contains w = true) := by
      intro hc
      exact hwused (List.elem_iff.1 hc)
    have hlenw : ¬ (decide (w.length ≠ v.len) = true) := by
      simp only [decide_eq_true_eq, not_not]
      rw [hw]
      exact hlen v hv
    have hall : ((neighbors p v).all (fun v2 =>
        match lookupA s v2 with
        | some w2 => pair_consistent p (v, w) (v2, w2)
        | none => true)) = true := by
      rw [List.all_eq_true]
      intro v2 hv2
      cases hl2 : lookupA s v2 with
      | none => rfl
      | some w2 =>
        have hmem2 := lookupA_some_mem s v2 w2 hl2
        have hw2 : w2 = A v2 := (hs (v2, w2) hmem2).2
        rw [hw, hw2]
        exact hpair v hv v2 hv2
    simp only [consistentLoop, if_neg hcont, if_neg hlenw, if_pos hall]
    refine ih (w :: used) (fun e he => hl e (List.mem_cons_of_mem _ he)) ?_ ?_
    · exact (List.nodup_cons.1 (by simpa using hnd)).2
    · intro w2 hw2 e he
      rcases List.mem_cons.1 hw2 with rfl | hw2u
      · have hev : e.1 ≠ v := by
          intro hh
          have : v ∈ rest.map (·.1) := by
            rw [← hh]
            exact List.mem_map_of_mem _ he
          exact (List.nodup_cons.1 (by simpa using hnd)).1 this
        rw [hw, (hl e (List.mem_cons_of_mem _ he)).2]
        exact hinj v hv e.1 (hl e (List.mem_cons_of_mem _ he)).1 (fun hh => hev hh.symm)
      · exact hdisj w2 hw2u e (List.mem_cons_of_mem _ he)

/-- Any assignment whose entries all come from a solution passes the
consistency check. -/
theorem consistent_of_A_trail (p : Puzzle) (A : Var → Word)
    (hlen : ∀ v ∈ p.vars, (A v).length = v.len)
    (hpair : ∀ u ∈ p.vars, ∀ v ∈ neighbors p u,
      pair_consistent p (u, A u) (v, A v) = true)
    (hinj : ∀ u ∈ p.vars, ∀ v ∈ p.vars, u ≠ v → A u ≠ A v)
    (s : Assignment) (hs : ∀ e ∈ s, e.1 ∈ p.vars ∧ e.2 = A e.1)
    (hnd : (s.map (·.1)).Nodup) : consistent p s = true :=
  consistentLoop_of_A_trail p A hlen hpair hinj s hs s [] hs hnd
    (fun w hw => absurd hw (List.not_mem_nil w))

/-- Every word of the domain appears among the ordered candidate values. -/
theorem mem_order_domain_values (p : Puzzle) (d : Domains) (var : Var) (a : Assignment)
    (w : Word) (h : w ∈ domOf d var) : w ∈ order_domain_values p d var a := by
  show w ∈ (List.insertionSort countLE
    ((domOf d var).map (fun w => (ruleOutCount p d var w, w)))).map (·.2)
  refine List.mem_map.2 ⟨(ruleOutCount p d var w, w), ?_, rfl⟩
  rw [List.mem_insertionSort]
  exact List.mem_map.2 ⟨w, h, rfl⟩

/-! ### Counting unassigned variables -/

/-- The number of puzzle variables not yet assigned. -/
def kappa (p : Puzzle) (a : Assignment) : Nat :=
  (p.vars.filter (fun v => decide (lookupA a v = none))).length

/-- The empty assignment leaves every variable unassigned. -/
theorem kappa_nil (p : Puzzle) : kappa p [] = p.vars.length := by
  unfold kappa
  have : ∀ l : List Var,
      (l.filter (fun v => decide (lookupA ([] : Assignment) v = none))).length =
        l.length := by
    intro l
    induction l with
    | nil => rfl
    | cons u rest ih => simp [List.filter, lookupA, ih]
  exact this p.vars

/-- Assigning one fresh variable decreases the unassigned count by one. -/
theorem kappa_drop (p : Puzzle) (a : Assignment) (var : Var) (w : Word)
    (hvars : p.vars.Nodup) (hvar : var ∈ p.vars) (hun : lookupA a var = none) :
    kappa p (a ++ [(var, w)]) + 1 = kappa p a := by
  unfold kappa
  have aux : ∀ l : List Var, l.Nodup → var ∈ l →
      (l.filter (fun v => decide (lookupA (a ++ [(var, w)]) v = none))).length + 1 =
        (l.filter (fun v => decide (lookupA a v = none))).length := by
    intro l
    induction l with
    | nil => intro _ h; exact absurd h (List.not_mem_nil var)
    | cons u rest ih =>
      intro hnd hm
      by_cases hu : u = var
      · subst hu
        have hpr1 : (decide (lookupA (a ++ [(u, w)]) u = none)) = false := by
          rw [lookupA_append_self a u w hun]
          simp
        have hpr2 : (decide (lookupA a u = none)) = true := by rw [hun]; simp
        have hnr : u ∉ rest := (List.nodup_cons.1 hnd).1
        have hcongr : rest.filter (fun v => decide (lookupA (a ++ [(u, w)]) v = none)) =
            rest.filter (fun v => decide (lookupA a v = none)) := by
          apply List.filter_congr
          intro v hv
          rw [lookupA_append_ne a u v w (fun hh => hnr (hh ▸ hv))]
        simp only [List.filter_cons, hpr1, hpr2, hcongr]
        simp
      · have hpr : (decide (lookupA (a ++ [(var, w)]) u = none)) =
            (decide (lookupA a u = none)) := by
          rw [lookupA_append_ne a var u w hu]
        have hm2 : var ∈ rest := by
          rcases List.mem_cons.1 hm with hh | hh
          · exact absurd hh.symm hu
          · exact hh
        have := ih (List.nodup_cons.1 hnd).2 hm2
        simp only [List.filter_cons, hpr]
        by_cases hcu : (decide (lookupA a u = none)) = true
        · rw [if_pos hcu, if_pos hcu]
          simp only [List.length_cons]
          omega
        · rw [if_neg hcu, if_neg hcu]
          exact this
  exact aux p.vars hvars hvar

/-- When the assignment has not covered every variable, some key of the
store is unassigned. -/
theorem exists_unassigned (p : Puzzle) (d : Domains) (a : Assignment)
    (hd : keysOf d = p.vars) (hvars : p.vars.Nodup)
    (hak : ∀ e ∈ a, e.1 ∈ p.vars) (hand : (a.map (·.1)).Nodup)
    (hnc : a.length ≠ d.length) :
    ∃ e ∈ d, lookupA a e.1 = none := by
  by_contra h
  push_neg at h
  have hsub : p.vars ⊆ a.map (·.1) := by
    intro v hv
    have hvd : (v, domOf d v) ∈ d := mem_of_mem_keysOf d v (by rw [hd]; exact hv)
    have h2 := h (v, domOf d v) hvd
    rw [← lookupA_isSome_iff]
    cases hl : lookupA a v with
    | none => exact absurd hl h2
    | some w2 => rfl
  have h1 : p.vars.length ≤ a.length := by
    have := nodup_subset_length p.vars (a.map (·.1)) hvars hsub
    simpa using this
  have h2 : a.length ≤ p.vars.length := by
    have hsub2 : a.map (·.1) ⊆ p.vars := by
      intro v hv
      rcases List.mem_map.1 hv with ⟨e, he, rfl⟩
      exact hak e he
    have := nodup_subset_length (a.map (·.1)) p.vars hand hsub2
    simpa using this
  have hdl : d.length = p.vars.length := by
    have := congrArg List.length hd
    simpa [keysOf] using this
  omega

/-! ### Domains along the initialization pipeline -/

/-- Every variable's initial domain is the full word list. -/
theorem domOf_initDomains (p : Puzzle) (words : List Word) (v : Var)
    (h : v ∈ p.vars) : domOf (initDomains p words) v = words := by
  unfold initDomains
  have aux : ∀ l : List Var, v ∈ l →
      domOf (l.map (fun u => (u, words))) v = words := by
    intro l
    induction l with
    | nil => intro h2; exact absurd h2 (List.not_mem_nil v)
    | cons u rest ih =>
      intro h2
      by_cases hu : u = v
      · simp [domOf, hu]
      · simp only [List.map_cons, domOf, if_neg hu]
        rcases List.mem_cons.1 h2 with hh | hh
        · exact absurd hh.symm hu
        · exact ih hh
  exact aux p.vars h

/-- Node-consistency enforcement filters each domain by its variable's
length. -/
theorem domOf_enforce (d : Domains) (v : Var) :
    domOf (enforce_node_consistency d) v =
      (domOf d v).filter (fun w => decide (w.length = v.len)) := by
  induction d with
  | nil => rfl
  | cons e rest ih =>
    by_cases he : e.1 = v
    · have h1 : domOf (enforce_node_consistency (e :: rest)) v =
          e.2.filter (fun w => decide (w.length = e.1.len)) := by
        simp [enforce_node_consistency, domOf, if_pos he]
      have h2 : domOf (e :: rest) v = e.2 := by simp [domOf, if_pos he]
      rw [h1, h2, he]
    · have h1 : domOf (enforce_node_consistency (e :: rest)) v =
          domOf (enforce_node_consistency rest) v := by
        simp [enforce_node_consistency, domOf, if_neg he]
      have h2 : domOf (e :: rest) v = domOf rest v := by simp [domOf, if_neg he]
      rw [h1, h2, ih]

/-! ### The search keeps the solution available in the store -/

/-- The candidate loop only shrinks domains through ac3, which keeps any
solution available, so the loop does too (given the recursive call does). -/
theorem btLoop_AInv (p : Puzzle) (A : Var → Word) (hvars : p.vars.Nodup)
    (hov : ∀ u v i j, p.overlaps u v = some (i, j) → i < u.len ∧ j < v.len)
    (hlen : ∀ v ∈ p.vars, (A v).length = v.len)
    (hpair : ∀ u ∈ p.vars, ∀ v ∈ neighbors p u,
      pair_consistent p (u, A u) (v, A v) = true)
    (recur : Domains → Assignment → Option Assignment × Domains)
    (HrecInv : ∀ d a, solAInv p A d → solAInv p A (recur d a).2) :
    ∀ (trials : List Word) (a : Assignment) (var : Var) (d : Domains),
      solAInv p A d → solAInv p A (btLoop p recur a var trials d).2 := by
  intro trials
  induction trials with
  | nil => intro a var d hInv; exact hInv
  | cons trial rest ih =>
    intro a var d hInv
    simp only [btLoop]
    by_cases hcons : consistent p (a ++ [(var, trial)]) = true
    · rw [if_pos hcons]
      obtain ⟨d', hac, hInv'⟩ := ac3_AInv p A hvars hov hlen hpair d hInv
      rw [hac]
      rw [if_pos rfl]
      rcases hr : recur d' (a ++ [(var, trial)]) with ⟨or, d2⟩
      have hInv2 : solAInv p A d2 := by
        have := HrecInv d' (a ++ [(var, trial)]) hInv'
        rw [hr] at this
        exact this
      cases or with
      | some res => exact hInv2
      | none => exact ih a var d2 hInv2
    · rw [if_neg hcons]
      exact ih a var d hInv

/-- The backtracking search keeps any solution available in the store. -/
theorem backtrack_AInv (p : Puzzle) (A : Var → Word) (hvars : p.vars.Nodup)
    (hov : ∀ u v i j, p.overlaps u v = some (i, j) → i < u.len ∧ j < v.len)
    (hlen : ∀ v ∈ p.vars, (A v).length = v.len)
    (hpair : ∀ u ∈ p.vars, ∀ v ∈ neighbors p u,
      pair_consistent p (u, A u) (v, A v) = true) :
    ∀ (fuel : Nat) (d : Domains) (a : Assignment),
      solAInv p A d → solAInv p A (backtrack p fuel d a).2 := by
  intro fuel
  induction fuel with
  | zero => intro d a hInv; exact hInv
  | succ f ih =>
    intro d a hInv
    simp only [backtrack]
    by_cases hc : assignment_complete d a = true
    · rw [if_pos hc]; exact hInv
    · rw [if_neg hc]
      cases hs : select_unassigned_variable p d a with
      | none => exact hInv
      | some var =>
        exact btLoop_AInv p A hvars hov hlen hpair (backtrack p f)
          (fun d a => ih d a) _ a var d hInv

/-- Completeness of backtrack: if the store still offers a solution A for
every variable, the search starting from any partial trail of A with enough
fuel returns some assignment. -/
theorem backtrack_complete (p : Puzzle) (A : Var → Word) (hvars : p.vars.Nodup)
    (hov : ∀ u v i j, p.overlaps u v = some (i, j) → i < u.len ∧ j < v.len)
    (hlen : ∀ v ∈ p.vars, (A v).length = v.len)
    (hpair : ∀ u ∈ p.vars, ∀ v ∈ neighbors p u,
      pair_consistent p (u, A u) (v, A v) = true)
    (hinj : ∀ u ∈ p.vars, ∀ v ∈ p.vars, u ≠ v → A u ≠ A v) :
    ∀ (fuel : Nat) (d : Domains) (a : Assignment),
      keysOf d = p.vars → solAInv p A d →
      (∀ e ∈ a, e.1 ∈ p.vars ∧ e.2 = A e.1) → (a.map (·.1)).Nodup →
      kappa p a < fuel →
      (backtrack p fuel d a).1.isSome := by
  intro fuel
  induction fuel with
  | zero => intro d a _ _ _ _ hκ; omega
  | succ f ih =>
    intro d a hd hInv htrail hand hκ
    simp only [backtrack]
    by_cases hc : assignment_complete d a = true
    · rw [if_pos hc]; simp
    · rw [if_neg hc]
      have hnc : a.length ≠ d.length := by simpa [assignment_complete] using hc
      have hex := exists_unassigned p d a hd hvars (fun e he => (htrail e he).1) hand hnc
      have hsome := select_isSome p d a hex
      rcases Option.isSome_iff_exists.1 hsome with ⟨var, hsel⟩
      rw [hsel]
      have hvmem := select_mem p d a var hsel
      have hvar : var ∈ p.vars := by
        rcases hvmem.1 with ⟨ws, hws⟩
        rw [← hd]
        exact List.mem_map_of_mem (fun q => q.1) hws
      have hunass : lookupA a var = none := hvmem.2
      have htrailA : ∀ e ∈ a ++ [(var, A var)], e.1 ∈ p.vars ∧ e.2 = A e.1 := by
        intro e he
        rcases List.mem_append.1 he with he | he
        · exact htrail e he
        · rcases List.mem_singleton.1 he with rfl
          exact ⟨hvar, rfl⟩
      have handA := nodup_keys_concat a var (A var) hand hunass
      have hAin : A var ∈ order_domain_values p d var a :=
        mem_order_domain_values p d var a (A var) (hInv var hvar)
      have aux : ∀ (trials : List Word) (d0 : Domains),
          keysOf d0 = p.vars → solAInv p A d0 → A var ∈ trials →
          (btLoop p (backtrack p f) a var trials d0).1.isSome := by
        intro trials
        induction trials with
        | nil => intro d0 _ _ hmem; exact absurd hmem (List.not_mem_nil _)
        | cons trial rest ihh =>
          intro d0 hd0 hInv0 hmem
          simp only [btLoop]
          by_cases hcons : consistent p (a ++ [(var, trial)]) = true
          · rw [if_pos hcons]
            obtain ⟨d', hac, hInv'⟩ := ac3_AInv p A hvars hov hlen hpair d0 hInv0
            rw [hac]
            rw [if_pos rfl]
            rcases hr : backtrack p f d' (a ++ [(var, trial)]) with ⟨or, d2⟩
            cases or with
            | some res => simp
            | none =>
              have hd' : keysOf d' = p.vars := by
                have h2 : keysOf (ac3 p d0 none).1 = keysOf d0 := keysOf_ac3 p d0 none
                rw [hac] at h2
                rw [show d' = ((d', true) : Domains × Bool).1 from rfl, h2, hd0]
              have htne : trial ≠ A var := by
                intro hte
                rw [hte] at hr
                have hκ2 : kappa p (a ++ [(var, A var)]) < f := by
                  have hdrop := kappa_drop p a var (A var) hvars hvar hunass
                  omega
                have hres := ih d' (a ++ [(var, A var)]) hd' hInv' htrailA handA hκ2
                rw [hr] at hres
                exact absurd hres (by simp)
              have hmem2 : A var ∈ rest := by
                rcases List.mem_cons.1 hmem with hh | hh
                · exact absurd hh.symm htne
                · exact hh
              have hInv2 : solAInv p A d2 := by
                have h3 := backtrack_AInv p A hvars hov hlen hpair f d'
                  (a ++ [(var, trial)]) hInv'
                rw [hr] at h3
                exact h3
              have hd2 : keysOf d2 = p.vars := by
                have h3 := backtrack_keys p f d' (a ++ [(var, trial)])
                rw [hr] at h3
                rw [show d2 = ((none, d2) :
                  Option Assignment × Domains).2 from rfl] at h3 ⊢
                rw [h3, hd']
              exact ihh d2 hd2 hInv2 hmem2
          · rw [if_neg hcons]
            have htne : trial ≠ A var := by
              intro hte
              rw [hte] at hcons
              exact hcons (consistent_of_A_trail p A hlen hpair hinj
                (a ++ [(var, A var)]) htrailA handA)
            have hmem2 : A var ∈ rest := by
              rcases List.mem_cons.1 hmem with hh | hh
              · exact absurd hh.symm htne
              · exact hh
            exact ihh d0 hd0 hInv0 hmem2
      exact aux (order_domain_values p d var a) d hd hInv hAin

/-- C5 (completeness on small instances): for every well-formed puzzle with
at most 4 variables and every word list, if some complete assignment drawing
its words from the list passes the consistency check, then solve returns
some assignment, and what it returns is itself complete and consistent. -/
theorem solve_complete_small (p : Puzzle) (words : List Word)
    (hvars : p.vars.Nodup)
    (hov : ∀ u v i j, p.overlaps u v = some (i, j) → i < u.len ∧ j < v.len)
    (hsmall : p.vars.length ≤ 4)
    (hex : ∃ afull : Assignment, (afull.map (·.1)).Perm p.vars ∧
      (∀ e ∈ afull, e.2 ∈ words) ∧ consistent p afull = true) :
    ∃ r, solve p words = some r ∧ consistent p r = true ∧
      ∀ v ∈ p.vars, (lookupA r v).isSome := by
  rcases hex with ⟨af, hperm, hwords, hcons⟩
  have hkeysnd : (af.map (·.1)).Nodup := hperm.nodup_iff.2 hvars
  have hAv : ∀ v ∈ p.vars, (v, (lookupA af v).getD []) ∈ af := by
    intro v hv
    have hmem : v ∈ af.map (·.1) := hperm.mem_iff.2 hv
    have hsome : (lookupA af v).isSome := (lookupA_isSome_iff af v).2 hmem
    cases hl : lookupA af v with
    | none => rw [hl] at hsome; exact absurd hsome (by simp)
    | some w =>
      have := lookupA_some_mem af v w hl
      simpa [hl] using this
  obtain ⟨hfacts, hvalsnd, _⟩ := consistentLoop_facts p af af [] hcons
  have hlenA : ∀ v ∈ p.vars, ((lookupA af v).getD []).length = v.len :=
    fun v hv => (hfacts (v, (lookupA af v).getD []) (hAv v hv)).1
  have hpairA : ∀ u ∈ p.vars, ∀ v ∈ neighbors p u,
      pair_consistent p (u, (lookupA af u).getD []) (v, (lookupA af v).getD []) = true := by
    intro u hu v hnb
    have hvv : v ∈ p.vars := ((mem_neighbors p u v).1 hnb).1
    have hlv : lookupA af v = some ((lookupA af v).getD []) := by
      have hmem : v ∈ af.map (·.1) := hperm.mem_iff.2 hvv
      cases hl : lookupA af v with
      | none =>
        exact absurd ((lookupA_eq_none_iff af v).1 hl) (by simp [hmem])
      | some w => rfl
    exact (hfacts (u, (lookupA af u).getD []) (hAv u hu)).2 v hnb _ hlv
  have hinjA : ∀ u ∈ p.vars, ∀ v ∈ p.vars, u ≠ v →
      (lookupA af u).getD [] ≠ (lookupA af v).getD [] := by
    intro u hu v hv hne heq
    have := values_injective af hvalsnd (u, (lookupA af u).getD [])
      (v, (lookupA af v).getD []) (hAv u hu) (hAv v hv) heq
    injection this with h1 h2
    exact hne h1
  have hInv0 : solAInv p (fun v => (lookupA af v).getD []) (initDomains p words) := by
    intro v hv
    rw [domOf_initDomains p words v hv]
    exact hwords (v, (lookupA af v).getD []) (hAv v hv)
  have hInv1 : solAInv p (fun v => (lookupA af v).getD [])
      (enforce_node_consistency (initDomains p words)) := by
    intro v hv
    rw [domOf_enforce]
    refine List.mem_filter.2 ⟨hInv0 v hv, ?_⟩
    simp only [decide_eq_true_eq]
    exact hlenA v hv
  obtain ⟨d2, hac, hInv2⟩ := ac3_AInv p (fun v => (lookupA af v).getD []) hvars hov
    hlenA hpairA (enforce_node_consistency (initDomains p words)) hInv1
  have hkeys2 : keysOf d2 = p.vars := by
    have h2 := keysOf_ac3 p (enforce_node_consistency (initDomains p words)) none
    rw [hac] at h2
    rw [show d2 = ((d2, true) : Domains × Bool).1 from rfl, h2, keysOf_enforce,
      keysOf_initDomains]
  have hlen2 : d2.length = p.vars.length := by
    have := congrArg List.length hkeys2
    simpa [keysOf] using this
  have hsolve : solve p words = (backtrack p (d2.length + 1) d2 []).1 := by
    show (backtrack p
      ((ac3 p (enforce_node_consistency (initDomains p words)) none).1.length + 1)
      (ac3 p (enforce_node_consistency (initDomains p words)) none).1 []).1 = _
    rw [hac]
  have hbs := backtrack_complete p (fun v => (lookupA af v).getD []) hvars hov
    hlenA hpairA hinjA (d2.length + 1) d2 [] hkeys2 hInv2
    (fun e he => absurd he (List.not_mem_nil e)) List.nodup_nil
    (by rw [kappa_nil, ← hlen2]; omega)
  rcases hb : backtrack p (d2.length + 1) d2 [] with ⟨or, dfin⟩
  rw [hb] at hbs
  cases or with
  | none => exact absurd hbs (by simp)
  | some r =>
    have hsnd := backtrack_sound p (d2.length + 1) d2 [] r dfin hkeys2 rfl
      (fun e he => absurd he (List.not_mem_nil e)) List.nodup_nil hb
    refine ⟨r, ?_, hsnd.1, covers_of_keys p r hvars hsnd.2.1 hsnd.2.2.1 hsnd.2.2.2⟩
    rw [hsolve, hb]

/-- Witness for solve_complete_small: the crossing puzzle pC with words aa
and ab admits the full assignment vAc to aa, vDn to ab, and solve finds a
complete consistent assignment. -/
theorem solve_complete_small_witness :
    ∃ r, solve pC [['a', 'a'], ['a', 'b']] = some r ∧ consistent pC r = true ∧
      ∀ v ∈ pC.vars, (lookupA r v).isSome := by
  refine solve_complete_small pC [['a', 'a'], ['a', 'b']] (by decide) ?_ (by decide)
    ⟨[(vAc, ['a', 'a']), (vDn, ['a', 'b'])], by decide, by decide, by decide⟩
  intro u v i j h
  have hpc : pC.overlaps u v =
      (if (u = vAc ∧ v = vDn) ∨ (u = vDn ∧ v = vAc) then some (0, 0) else none) := rfl
  rw [hpc] at h
  by_cases hcond : (u = vAc ∧ v = vDn) ∨ (u = vDn ∧ v = vAc)
  · rw [if_pos hcond] at h
    injection h with hh
    injection hh with h1 h2
    rcases hcond with ⟨rfl, rfl⟩ | ⟨rfl, rfl⟩ <;> rw [← h1, ← h2] <;> exact ⟨by decide, by decide⟩
  · rw [if_neg hcond] at h
    exact absurd h (by simp)

end CrosswordGen
